import Mathlib

/-!
# Verification of the hp6633 ramp/acquisition control loop

Shallow embedding of the core of `hp6633.c` (the HP663xA power-supply
control program): the per-cycle ramp decision, the acquisition loop with
its failure exits, the dataset file format (`%.4f`-formatted tab-separated
records, blank-line segment separators), and the resource-release
behaviour on each exit path.

Modelling conventions:
* C `float`/`double` arithmetic is modelled by exact rational arithmetic
  (`ℚ`); the concrete scenarios checked here use values on which the C
  program's binary floating point is exact as well.
* `FILE*` buffering is modelled explicitly: `fprintf` appends to a
  buffer, `fflush` moves the buffer to disk, `fclose` flushes and closes.
* Instrument I/O, wall-clock time and the keyboard are external
  collaborators; each loop cycle receives their behaviour as a
  `CycleInput` value.
* `sscanf(buf, "%f", &x)` is modelled by a prefix parser for decimal
  numerals (optional sign, digits, optional fraction; exponents are not
  modelled since neither the formatter nor the instrument produces them);
  on parse failure the target variable keeps its previous value, exactly
  as in C when the `sscanf` return value is ignored.
-/

set_option maxHeartbeats 1000000

attribute [local semireducible] Rat.add Rat.mul Rat.sub Rat.inv

namespace HP6633

/-- The decimal digit character with value `d` (ASCII `48 + d`),
as produced by C's `printf` numeric conversions. -/
def digCh (d : ℕ) : Char := Char.ofNat (48 + d)

/-- Decimal-digit test on characters (ASCII codes 48..57). -/
def isDig (c : Char) : Bool := decide (48 ≤ c.toNat ∧ c.toNat ≤ 57)

/-- Numeric value of a decimal digit character. -/
def digVal (c : Char) : ℕ := c.toNat - 48

/-- Value of a most-significant-first decimal digit string. -/
def ofDigits (cs : List Char) : ℕ := cs.foldl (fun n c => 10 * n + digVal c) 0

/-- Decimal digits of a natural number, most significant first, prepended
to `acc`; fuelled so that it reduces definitionally (the first argument is
the fuel, any fuel `≥ n` gives the digits of `n`). -/
def toDigitsAux : ℕ → ℕ → List Char → List Char
  | 0, _, acc => acc
  | _ + 1, 0, acc => acc
  | f + 1, n + 1, acc => toDigitsAux f ((n + 1) / 10) (digCh ((n + 1) % 10) :: acc)

/-- Decimal digit string of `n`, as printed by `printf` (`"0"` for zero). -/
def toDigits (n : ℕ) : List Char := if n = 0 then ['0'] else toDigitsAux n n []

/-- Exactly four zero-padded decimal digits of `k < 10000`: the fractional
part printed by `%.4f`. -/
def pad4 (k : ℕ) : List Char :=
  [digCh (k / 1000 % 10), digCh (k / 100 % 10), digCh (k / 10 % 10), digCh (k % 10)]

/-- The value actually denoted by the `%.4f` rendering of `q`:
`q` rounded to four decimal places. -/
def round4 (q : ℚ) : ℚ := ((round (q * 10000) : ℤ) : ℚ) / 10000

/-- Character string printed by `printf("%.4f", q)`: optional minus sign,
integer digits, `'.'`, four fraction digits. -/
def fmt4Chars (q : ℚ) : List Char :=
  let n : ℤ := round (q * 10000)
  let m : ℕ := n.natAbs
  let core : List Char := toDigits (m / 10000) ++ '.' :: pad4 (m % 10000)
  if n < 0 then '-' :: core else core

/-- `printf("%.4f", q)` as a `String`. -/
def fmt4 (q : ℚ) : String := String.mk (fmt4Chars q)

/-- Magnitude part of the `sscanf` `%f` conversion: digits, then an
optional `'.'` followed by fraction digits; at least one digit must be
present.  Returns the parsed value (with sign `sgn`) and the unconsumed
remainder. -/
def scanMag (sgn : ℚ) (cs : List Char) : Option ℚ × List Char :=
  let ints := cs.takeWhile isDig
  let rest := cs.dropWhile isDig
  match rest with
  | c :: rest2 =>
    if c = '.' then
      let fracs := rest2.takeWhile isDig
      let rest3 := rest2.dropWhile isDig
      if ints.isEmpty && fracs.isEmpty then (none, cs)
      else (some (sgn * ((ofDigits ints : ℚ) + (ofDigits fracs : ℚ) / 10 ^ fracs.length)), rest3)
    else if ints.isEmpty then (none, cs)
    else (some (sgn * (ofDigits ints : ℚ)), rest)
  | [] => if ints.isEmpty then (none, cs) else (some (sgn * (ofDigits ints : ℚ)), rest)

/-- The `sscanf` `%f` conversion on a character list: skip leading blanks,
optional sign, then a decimal numeral.  `none` models a conversion
failure (`sscanf` returning 0), in which case the C target variable is
left untouched. -/
def scanF (cs : List Char) : Option ℚ × List Char :=
  match cs.dropWhile (fun c => c == ' ' || c == '\t') with
  | [] => (none, [])
  | c :: rest =>
    if c = '-' then scanMag (-1) rest
    else if c = '+' then scanMag 1 rest
    else scanMag 1 (c :: rest)

/-- `sscanf(s, "%f", &x)` as used at hp6633.c:466 and hp6633.c:478. -/
def scanFloat (s : String) : Option ℚ := (scanF s.data).1

/-- One dataset record line, `fprintf(outfile, "%.4f\t%.4f\t%.4f\n", t, v, a)`
(hp6633.c:482), without its terminating newline. -/
def fmtLine (t v a : ℚ) : String :=
  String.mk (fmt4Chars t ++ '\t' :: fmt4Chars v ++ '\t' :: fmt4Chars a)

/-- Modelled from the spec: reading one dataset line back as three
tab-separated numeric fields (the read-back side of the DatasetWriter
round-trip; the reader — gnuplot — is not part of this repository's
source). -/
def parseRecordChars (cs : List Char) : Option (ℚ × ℚ × ℚ) :=
  match scanF cs with
  | (some t, c1 :: cs2) =>
    if c1 = '\t' then
      match scanF cs2 with
      | (some v, c2 :: cs3) =>
        if c2 = '\t' then
          match scanF cs3 with
          | (some a, []) => some (t, v, a)
          | _ => none
        else none
      | _ => none
    else none
  | _ => none

/-- Modelled from the spec: record parser on `String`s. -/
def parseRecord (s : String) : Option (ℚ × ℚ × ℚ) := parseRecordChars s.data

/-! ## The dataset file

A `FILE*` opened for writing: `fprintf` appends lines to the stdio
buffer, `fflush` forces them to disk, `fclose` flushes and closes. -/

structure FileState where
  disk : List String
  buf : List String
  closed : Bool
deriving DecidableEq, Repr

/-- `fprintf` of whole lines: append to the stdio buffer. -/
def fwrite (f : FileState) (ls : List String) : FileState :=
  { f with buf := f.buf ++ ls }

/-- `fflush(outfile)` (hp6633.c:488). -/
def fflushF (f : FileState) : FileState :=
  { disk := f.disk ++ f.buf, buf := [], closed := f.closed }

/-- `fclose(outfile)`: flush remaining buffer, close. -/
def fcloseF (f : FileState) : FileState :=
  { disk := f.disk ++ f.buf, buf := [], closed := true }

/-- Is a file line a sample record?  Everything that is neither a comment
(header/footer) line — first character `'#'` — nor a blank (separator)
line. -/
def isRecordLine (l : String) : Bool :=
  match l.data with
  | [] => false
  | c :: _ => c ≠ '#'

/-- The sample-record lines of a file. -/
def dataRecords (ls : List String) : List String := ls.filter isRecordLine

/-! ## Configuration and ramp state -/

/-- The per-run configuration, as read from the command line
(`set_volt`/`max_volt`/`ramp`/`dramp` and friends in `main`).
`ramp` is the signed increment in millivolts. -/
structure Config where
  set_volt : ℚ
  max_volt : ℚ
  ramp : ℤ
  dramp0 : Bool
  do_flush : ℕ
  do_reset : Bool
  do_graph : Bool
deriving DecidableEq, Repr

/-- `ramp * 0.001`: the signed step in volts (hp6633.c:441). -/
def stepQ (r : ℤ) : ℚ := (r : ℚ) / 1000

/-- The mutable ramp variables of `main`: `ramp_volt`, the current signed
step `ramp`, and the `dramp`/`dramp_avail` flags. -/
structure RampSt where
  ramp_volt : ℚ
  ramp : ℤ
  dramp : Bool
  dramp_avail : Bool
deriving DecidableEq, Repr

/-- What the ramp block of one loop cycle decides (hp6633.c:421-451):
apply a new setpoint via `VSET`, reverse (emit the two-blank-line
separator, flip the step, and apply the first returning setpoint), or
leave the loop. -/
inductive RampDecision where
  | apply (v : ℚ)
  | reverse (v : ℚ)
  | terminate
deriving DecidableEq, Repr

/-- The loop-exit test at hp6633.c:424:
`((ramp > 0) && (ramp_volt > max_volt)) || ((ramp < 0) && (ramp_volt < set_volt))`. -/
def boundReached (cfg : Config) (s : RampSt) : Bool :=
  decide ((0 < s.ramp ∧ cfg.max_volt < s.ramp_volt) ∨ (s.ramp < 0 ∧ s.ramp_volt < cfg.set_volt))

/-- One execution of the ramp block (hp6633.c:424-442): check the bound,
on the bound either terminate (`key = ESC; break`) or — under dual
ramping — flip the step and clear `dramp`; otherwise (and also in the
reversal cycle) advance `ramp_volt` by one step and apply it. -/
def rampCycle (cfg : Config) (s : RampSt) : RampDecision × RampSt :=
  if boundReached cfg s then
    if s.dramp then
      let r := -s.ramp
      let v := s.ramp_volt + stepQ r
      (RampDecision.reverse v, ⟨v, r, false, true⟩)
    else
      (RampDecision.terminate, s)
  else
    let v := s.ramp_volt + stepQ s.ramp
    (RampDecision.apply v, ⟨v, s.ramp, s.dramp, s.dramp_avail⟩)

/-- Iterate the ramp block for at most `n` cycles, collecting the decision
sequence and the final ramp state; the iteration stops at `terminate`
(the loop `break`). -/
def rampRun (cfg : Config) : RampSt → ℕ → List RampDecision × RampSt
  | s, 0 => ([], s)
  | s, n + 1 =>
    match rampCycle cfg s with
    | (RampDecision.terminate, s') => ([RampDecision.terminate], s')
    | (d, s') =>
      let p := rampRun cfg s' n
      (d :: p.1, p.2)

/-- The decision sequence of `rampRun`. -/
def rampTrace (cfg : Config) (s : RampSt) (n : ℕ) : List RampDecision :=
  (rampRun cfg s n).1

/-- Initial ramp state: `ramp_volt = (ramp > 0 ? set_volt : max_volt)`
(hp6633.c:414), step and dual flag from the command line, no second
dataset yet. -/
def initRampSt (cfg : Config) : RampSt :=
  ⟨if 0 < cfg.ramp then cfg.set_volt else cfg.max_volt, cfg.ramp, cfg.dramp0, false⟩

/-- Number of `reverse` decisions in a trace. -/
def isReverse : RampDecision → Bool
  | RampDecision.reverse _ => true
  | _ => false

def countReverse (l : List RampDecision) : ℕ := (l.filter isReverse).length

/-- The number of whole steps the claims' bound formula is built from:
`⌈ |end_volt - start_volt| / |step_mv / 1000| ⌉ = ⌈ 1000·(max_volt - set_volt) / |ramp| ⌉`. -/
def ceilSteps (cfg : Config) : ℕ :=
  (Int.ceil ((cfg.max_volt - cfg.set_volt) * 1000 / |(cfg.ramp : ℚ)|)).toNat

/-- The voltage handed to `hp663X_setup` before the loop:
`(ramp > 0 ? 0.0 : set_volt)` (hp6633.c:375). -/
def setupVolt (ramp : ℤ) (set_volt : ℚ) : ℚ := if 0 < ramp then 0 else set_volt

/-! ## The acquisition loop -/

/-- External behaviour consumed by one loop cycle: whether the `VSET`
write succeeds, the elapsed time `t1` in minutes, the `VOUT?`/`IOUT?`
responses (`none` = `hp663X_read` failed at the GPIB level, `some s` =
the trimmed response text), and the key delivered by `kbhit`/`readch`
(as its character code), if any. -/
structure CycleInput where
  vsetOk : Bool
  t1 : ℚ
  vout : Option String
  iout : Option String
  key : Option ℕ
deriving DecidableEq, Repr

/-- The mutable state of `main` around the loop, together with the
resource bookkeeping needed to state the exit-path claims:
`gpOpen` — a gnuplot pipe exists; `gpClosed` — `pclose(gp)` was called;
`kbRestored` — `close_keyboard()` was called; `instClosed` —
`hp663X_close` was invoked.  `vsets` records every voltage successfully
sent via `hp663X_set(inst, "VSET", ·)`. -/
structure RunState where
  rs : RampSt
  loop : ℕ
  key : ℕ
  volt : ℚ
  amp : ℚ
  file : FileState
  gpOpen : Bool
  gpClosed : Bool
  kbRestored : Bool
  instClosed : Bool
  vsets : List ℚ
deriving DecidableEq, Repr

/-- Result of one loop cycle: continue, leave the loop normally
(`key == 'q' || key == ESC`, or the ramp-bound `break`), or return
`ERR_INST` from inside the loop. -/
inductive StepRes where
  | cont (s : RunState)
  | exitNormal (s : RunState)
  | exitErr (s : RunState)
deriving DecidableEq, Repr

/-- The state carried by a `StepRes`. -/
def resState : StepRes → RunState
  | StepRes.cont s => s
  | StepRes.exitNormal s => s
  | StepRes.exitErr s => s

/-- The mid-loop `ERR_INST` exit sequence (hp6633.c:444-449, 458-464,
470-476): `pclose(gp)` if a pipe exists, `fclose(outfile)`,
`close_keyboard()` — and nothing else; in particular `hp663X_close` is
not called here. -/
def failExit (s : RunState) : RunState :=
  { s with gpClosed := s.gpOpen, file := fcloseF s.file, kbRestored := true }

/-- Tail of the sampling half of one cycle (hp6633.c:481-508), after both
readings have been stored: `++loop`, append the record line, flush every
`do_flush` samples (the gnuplot refresh has no effect on the modelled
state), poll the keyboard (`kbhit`/`readch`: the key variable keeps its
old value when no key was pressed), and test the `while` condition
(`'q'` = 113, `ESC` = 27). -/
def sampleRest (cfg : Config) (s2 : RunState) (t1 : ℚ) (k : Option ℕ) : StepRes :=
  let s3 := { s2 with loop := s2.loop + 1 }
  let s4 := { s3 with file := fwrite s3.file [fmtLine t1 s3.volt s3.amp] }
  let s5 := if s4.loop % cfg.do_flush = 0 then { s4 with file := fflushF s4.file } else s4
  let s6 := { s5 with key := k.getD s5.key }
  if s6.key = 113 ∨ s6.key = 27 then StepRes.exitNormal s6 else StepRes.cont s6

/-- The sampling half of one cycle (hp6633.c:453-508): read `VOUT?` and
`IOUT?` (a GPIB failure aborts with `ERR_INST`; the `sscanf` result is
ignored, so unparsable text leaves the previous value in place), then
`sampleRest`. -/
def sample (cfg : Config) (s : RunState) (inp : CycleInput) : StepRes :=
  match inp.vout with
  | none => StepRes.exitErr (failExit s)
  | some sv =>
    let s1 := { s with volt := (scanFloat sv).getD s.volt }
    match inp.iout with
    | none => StepRes.exitErr (failExit s1)
    | some sa =>
      let s2 := { s1 with amp := (scanFloat sa).getD s1.amp }
      sampleRest cfg s2 inp.t1 inp.key

/-- Send the new setpoint via `hp663X_set(inst, "VSET", v)` (hp6633.c:442);
on failure take the mid-loop `ERR_INST` exit, otherwise sample. -/
def vsetAndSample (cfg : Config) (s : RunState) (inp : CycleInput) (v : ℚ) : StepRes :=
  if inp.vsetOk then sample cfg { s with vsets := s.vsets ++ [v] } inp
  else StepRes.exitErr (failExit s)

/-- One whole cycle of the `do … while` loop (hp6633.c:420-508). -/
def cycle (cfg : Config) (s : RunState) (inp : CycleInput) : StepRes :=
  if s.rs.ramp = 0 then sample cfg s inp
  else
    match rampCycle cfg s.rs with
    | (RampDecision.terminate, rs') =>
      StepRes.exitNormal { s with rs := rs', key := 27 }
    | (RampDecision.reverse v, rs') =>
      vsetAndSample cfg { s with rs := rs', file := fwrite s.file ["", ""] } inp v
    | (RampDecision.apply v, rs') =>
      vsetAndSample cfg { s with rs := rs' } inp v

/-- How the whole run ended.  `errLoop` and `errClose` both model
`return ERR_INST` (the former from inside the loop, the latter from a
failing `hp663X_close`); `ok` models `return 0`; `spent` means the
supplied list of cycle inputs ran out with the loop still going (a
modelling artefact, not a program outcome). -/
inductive Outcome where
  | errLoop
  | errClose
  | ok
  | spent
deriving DecidableEq, Repr

/-- Run the `do … while` loop over a list of cycle inputs. -/
def runLoop (cfg : Config) : RunState → List CycleInput → Outcome × RunState
  | s, [] => (Outcome.spent, s)
  | s, inp :: rest =>
    match cycle cfg s inp with
    | StepRes.cont s' => runLoop cfg s' rest
    | StepRes.exitNormal s' => (Outcome.ok, s')
    | StepRes.exitErr s' => (Outcome.errLoop, s')

/-- The file as first written in `main` (hp6633.c:406-409): the
comment-prefixed header.  `ctime`'s trailing newline is the line
terminator of the `# Start:` line. -/
def initFile (comment startTime : String) : FileState :=
  { disk := []
    buf := ["# hp6633 V20250811", "# " ++ comment, "# Start: " ++ startTime,
            "# min\tVolt\tAmpere"]
    closed := false }

/-- State on entering the loop.  `volt`/`amp` are declared without an
initialiser in `main`, so their first values `volt0`/`amp0` are arbitrary
junk. -/
def initState (cfg : Config) (comment startTime : String) (volt0 amp0 : ℚ) : RunState :=
  { rs := initRampSt cfg
    loop := 0
    key := 0
    volt := volt0
    amp := amp0
    file := initFile comment startTime
    gpOpen := cfg.do_graph
    gpClosed := false
    kbRestored := false
    instClosed := false
    vsets := [] }

/-- The whole run from loop entry to process exit (hp6633.c:419-550):
run the loop; on a normal loop exit write the `# Stop:` footer
(`ctime`'s newline plus the format string's own `\n` make the extra
blank line), `fclose` the file, invoke `hp663X_close` (which fails only
when a reset was requested and its GPIB write fails — `closeOk`), then
release gnuplot and the keyboard.  A mid-loop `ERR_INST` exit has
already done its own (partial) cleanup. -/
def runMain (cfg : Config) (comment startTime stopTime : String) (volt0 amp0 : ℚ)
    (closeOk : Bool) (inputs : List CycleInput) : Outcome × RunState :=
  let p := runLoop cfg (initState cfg comment startTime volt0 amp0) inputs
  match p.1 with
  | Outcome.ok =>
    let s1 := p.2
    let s2 := { s1 with file := fcloseF (fwrite s1.file ["# Stop: " ++ stopTime, ""]) }
    let s3 := { s2 with instClosed := true }
    if cfg.do_reset ∧ closeOk = false then
      (Outcome.errClose, { s3 with gpClosed := s3.gpOpen, kbRestored := true })
    else
      (Outcome.ok, { s3 with gpClosed := s3.gpOpen, kbRestored := true })
  | o => (o, p.2)

/-- All three resources other than the instrument were released:
the dataset file is closed (hence flushed), the keyboard restored, and
the gnuplot pipe closed if one existed. -/
def released (s : RunState) : Prop :=
  s.file.closed = true ∧ s.kbRestored = true ∧ (s.gpOpen = true → s.gpClosed = true)

/-- A step of the loop that stays inside the loop (or leaves it normally)
touches none of the resource bookkeeping. -/
def preservesRes (s s' : RunState) : Prop :=
  s'.instClosed = s.instClosed ∧ s'.gpOpen = s.gpOpen ∧ s'.gpClosed = s.gpClosed ∧
  s'.kbRestored = s.kbRestored ∧ s'.file.closed = s.file.closed

/-- What the mid-loop `ERR_INST` exit leaves behind, relative to the state
`s` at the start of the cycle: file closed, keyboard restored, gnuplot
pipe closed iff it existed — and `hp663X_close` exactly as (un)invoked as
before. -/
def errCleanup (s s' : RunState) : Prop :=
  s'.file.closed = true ∧ s'.kbRestored = true ∧ s'.gpClosed = s.gpOpen ∧
  s'.gpOpen = s.gpOpen ∧ s'.instClosed = s.instClosed

/-- A sample triple formatted as one record line. -/
def fmtLine3 (r : ℚ × ℚ × ℚ) : String := fmtLine r.1 r.2.1 r.2.2

/-- A sample triple rounded to the four decimal places `%.4f` keeps. -/
def round4Triple (r : ℚ × ℚ × ℚ) : ℚ × ℚ × ℚ := (round4 r.1, round4 r.2.1, round4 r.2.2)

/-- `DatasetWriter.append` iterated: one `fprintf` record line per sample. -/
def writeSamples (f : FileState) (xs : List (ℚ × ℚ × ℚ)) : FileState :=
  xs.foldl (fun g r => fwrite g [fmtLine3 r]) f

/-- Modelled from the spec: reading the dataset back — skip blank
(separator) lines, parse each remaining line as a record.  (The reader,
gnuplot's `index`ed dataset consumer, is not part of this repository's
source.) -/
def readBack (ls : List String) : List (Option (ℚ × ℚ × ℚ)) :=
  (ls.filter (fun l => !(l == ""))).map parseRecord

/-- The DatasetWriter run of the C7 round-trip: `N` samples, one segment
boundary (`fprintf(outfile, "\n\n")` — two blank lines), `M` samples,
then close. -/
def c7File (xs ys : List (ℚ × ℚ × ℚ)) : FileState :=
  fcloseF (writeSamples (fwrite (writeSamples { disk := [], buf := [], closed := false } xs)
    ["", ""]) ys)

/-! ## Concrete configurations used in the scenario claims -/

/-- `-u 0 -U 5 -r 1000`: single upward ramp 0 V → 5 V in 1 V steps. -/
def cfgA : Config :=
  { set_volt := 0, max_volt := 5, ramp := 1000, dramp0 := false,
    do_flush := 100, do_reset := true, do_graph := true }

/-- Same with `-R`: dual ramp. -/
def cfgB : Config :=
  { set_volt := 0, max_volt := 5, ramp := 1000, dramp0 := true,
    do_flush := 100, do_reset := true, do_graph := true }

/-- A downward ramp whose span equals one step:
`-u 0 -U 0.001 -r -1`. -/
def cfgC : Config :=
  { set_volt := 0, max_volt := 1 / 1000, ramp := -1, dramp0 := false,
    do_flush := 100, do_reset := true, do_graph := true }

/-- A static (no-ramp) configuration. -/
def cfgS : Config :=
  { set_volt := 1, max_volt := 0, ramp := 0, dramp0 := false,
    do_flush := 100, do_reset := true, do_graph := true }

/-- A cycle input on which everything succeeds. -/
def okInput (t : ℚ) (v a : String) (k : Option ℕ) : CycleInput :=
  { vsetOk := true, t1 := t, vout := some v, iout := some a, key := k }

/-- C2 scenario inputs: one cycle whose `VOUT?` transport succeeds but
returns unparsable text, `IOUT?` returns `0.5`, and the quit key is hit. -/
def c2Inputs : List CycleInput :=
  [{ vsetOk := true, t1 := 1, vout := some "junk", iout := some "0.5", key := some 113 }]

/-- C3 scenario inputs: the very first `VSET` write fails. -/
def c3Inputs : List CycleInput :=
  [{ vsetOk := false, t1 := 1, vout := some "1", iout := some "0", key := none }]

/-- C8 scenario inputs: two good cycles, then a cycle whose `IOUT?`
query fails at the GPIB level. -/
def c8Inputs : List CycleInput :=
  [okInput 1 "1.0" "0.1" none, okInput 2 "2.0" "0.2" none,
   { vsetOk := true, t1 := 3, vout := some "3.0", iout := none, key := none }]

/-- C9 scenario inputs: nine good quiet cycles, then a good cycle during
which the quit key `'q'` is pressed. -/
def c9Inputs : List CycleInput :=
  (List.range 9).map (fun i => okInput i "1.0" "0.1" none) ++ [okInput 9 "1.0" "0.1" (some 113)]

/-- Seven good cycles for the C1 full run. -/
def c1Inputs : List CycleInput :=
  (List.range 7).map (fun i => okInput i "1.0" "0.1" none)

/-! ## Helper lemmas: decimal formatting and parsing -/

theorem digCh_toNat {d : ℕ} (h : d < 10) : (digCh d).toNat = 48 + d := by
  interval_cases d <;> rfl

theorem isDig_digCh {d : ℕ} (h : d < 10) : isDig (digCh d) = true := by
  interval_cases d <;> decide

theorem digVal_digCh {d : ℕ} (h : d < 10) : digVal (digCh d) = d := by
  unfold digVal
  rw [digCh_toNat h]
  omega

theorem ofDigits_nil : ofDigits [] = 0 := rfl

theorem ofDigits_append_singleton (A : List Char) (c : Char) :
    ofDigits (A ++ [c]) = 10 * ofDigits A + digVal c := by
  unfold ofDigits
  rw [List.foldl_append]
  rfl

theorem toDigitsAux_append : ∀ (f n : ℕ) (acc : List Char),
    toDigitsAux f n acc = toDigitsAux f n [] ++ acc := by
  intro f
  induction f with
  | zero =>
    intro n acc
    simp [toDigitsAux]
  | succ f ih =>
    intro n acc
    cases n with
    | zero => simp [toDigitsAux]
    | succ n =>
      show toDigitsAux f ((n + 1) / 10) (digCh ((n + 1) % 10) :: acc) = _
      rw [ih ((n + 1) / 10) (digCh ((n + 1) % 10) :: acc)]
      conv_rhs => rw [show toDigitsAux (f + 1) (n + 1) [] =
        toDigitsAux f ((n + 1) / 10) [digCh ((n + 1) % 10)] from rfl]
      rw [ih ((n + 1) / 10) [digCh ((n + 1) % 10)]]
      simp

theorem toDigitsAux_digits : ∀ (f n : ℕ) (acc : List Char),
    (∀ c ∈ acc, isDig c = true) → ∀ c ∈ toDigitsAux f n acc, isDig c = true := by
  intro f
  induction f with
  | zero =>
    intro n acc hacc
    simpa [toDigitsAux] using hacc
  | succ f ih =>
    intro n acc hacc
    cases n with
    | zero => simpa [toDigitsAux] using hacc
    | succ n =>
      show ∀ c ∈ toDigitsAux f ((n + 1) / 10) (digCh ((n + 1) % 10) :: acc), isDig c = true
      refine ih _ _ ?_
      intro c hc
      rcases List.mem_cons.mp hc with hc | hc
      · subst hc
        exact isDig_digCh (Nat.mod_lt _ (by norm_num))
      · exact hacc c hc

theorem ofDigits_toDigitsAux : ∀ (n f : ℕ), n ≤ f → ofDigits (toDigitsAux f n []) = n := by
  intro n
  induction n using Nat.strong_induction_on with
  | _ n ih =>
    cases n with
    | zero =>
      intro f _
      cases f <;> rfl
    | succ n =>
      intro f hf
      obtain ⟨f', rfl⟩ : ∃ f', f = f' + 1 := ⟨f - 1, by omega⟩
      show ofDigits (toDigitsAux f' ((n + 1) / 10) [digCh ((n + 1) % 10)]) = n + 1
      rw [toDigitsAux_append f' ((n + 1) / 10) [digCh ((n + 1) % 10)]]
      rw [ofDigits_append_singleton]
      rw [ih ((n + 1) / 10) (by omega) f' (by omega)]
      rw [digVal_digCh (Nat.mod_lt _ (by norm_num))]
      omega

theorem toDigits_digits (n : ℕ) : ∀ c ∈ toDigits n, isDig c = true := by
  unfold toDigits
  split
  · intro c hc
    simp at hc
    subst hc
    decide
  · exact toDigitsAux_digits n n [] (by simp)

theorem ofDigits_toDigits (n : ℕ) : ofDigits (toDigits n) = n := by
  unfold toDigits
  split
  · rename_i h
    rw [h]
    decide
  · exact ofDigits_toDigitsAux n n le_rfl

theorem toDigits_ne_nil (n : ℕ) : toDigits n ≠ [] := by
  unfold toDigits
  split
  · simp
  · rename_i h
    obtain ⟨n', rfl⟩ : ∃ n', n = n' + 1 := ⟨n - 1, by omega⟩
    show toDigitsAux n' ((n' + 1) / 10) [digCh ((n' + 1) % 10)] ≠ []
    rw [toDigitsAux_append]
    simp

theorem pad4_digits (k : ℕ) : ∀ c ∈ pad4 k, isDig c = true := by
  unfold pad4
  intro c hc
  simp only [List.mem_cons, List.not_mem_nil, or_false] at hc
  rcases hc with h | h | h | h <;>
    · subst h
      exact isDig_digCh (Nat.mod_lt _ (by norm_num))

theorem ofDigits_pad4 {k : ℕ} (h : k < 10000) : ofDigits (pad4 k) = k := by
  unfold ofDigits pad4
  simp only [List.foldl]
  rw [digVal_digCh (Nat.mod_lt _ (by norm_num)), digVal_digCh (Nat.mod_lt _ (by norm_num)),
    digVal_digCh (Nat.mod_lt _ (by norm_num)), digVal_digCh (Nat.mod_lt _ (by norm_num))]
  omega

theorem takeWhile_all_append (p : Char → Bool) :
    ∀ (A B : List Char), (∀ c ∈ A, p c = true) →
      (∀ b, B.head? = some b → p b = false) →
      (A ++ B).takeWhile p = A ∧ (A ++ B).dropWhile p = B := by
  intro A
  induction A with
  | nil =>
    intro B h1 h2
    constructor
    · cases B with
      | nil => rfl
      | cons b B' => simp [List.takeWhile_cons, h2 b rfl]
    · cases B with
      | nil => rfl
      | cons b B' => simp [List.dropWhile_cons, h2 b rfl]
  | cons a A ih =>
    intro B h1 h2
    have pa : p a = true := h1 a (List.mem_cons_self a A)
    obtain ⟨ht, hd⟩ := ih B (fun c hc => h1 c (List.mem_cons_of_mem a hc)) h2
    constructor
    · simp [List.takeWhile_cons, pa, ht]
    · simp [List.dropWhile_cons, pa, hd]

theorem isEmpty_toDigits (n : ℕ) : (toDigits n).isEmpty = false := by
  cases h : toDigits n with
  | nil => exact absurd h (toDigits_ne_nil _)
  | cons a l => rfl

theorem cast_div4 (m : ℕ) :
    ((m / 10000 : ℕ) : ℚ) + ((m % 10000 : ℕ) : ℚ) / 10 ^ (4 : ℕ) = (m : ℚ) / 10000 := by
  have h := Nat.div_add_mod m 10000
  have h2 : ((10000 * (m / 10000) + m % 10000 : ℕ) : ℚ) = (m : ℚ) := by
    exact_mod_cast congrArg (fun k : ℕ => (k : ℚ)) h
  push_cast at h2
  have h3 : (10 : ℚ) ^ (4 : ℕ) = 10000 := by norm_num
  rw [h3]
  field_simp
  linarith

theorem scanMag_fmt (sgn : ℚ) (m : ℕ) (rest : List Char)
    (hrest : ∀ b, rest.head? = some b → isDig b = false) :
    scanMag sgn (toDigits (m / 10000) ++ '.' :: (pad4 (m % 10000) ++ rest)) =
      (some (sgn * ((m : ℚ) / 10000)), rest) := by
  obtain ⟨ht1, hd1⟩ := takeWhile_all_append isDig (toDigits (m / 10000))
    ('.' :: (pad4 (m % 10000) ++ rest)) (toDigits_digits _)
    (by
      intro b hb
      injection hb with hb
      subst hb
      decide)
  obtain ⟨ht2, hd2⟩ := takeWhile_all_append isDig (pad4 (m % 10000)) rest (pad4_digits _) hrest
  unfold scanMag
  rw [ht1, hd1]
  dsimp only
  rw [if_pos rfl, ht2, hd2, isEmpty_toDigits]
  simp only [Bool.false_and, if_false]
  rw [ofDigits_toDigits, ofDigits_pad4 (Nat.mod_lt _ (by norm_num))]
  have hlen : (pad4 (m % 10000)).length = 4 := rfl
  rw [hlen, cast_div4]
  simp

theorem isDig_not_blank {c : Char} (hc : isDig c = true) :
    (c == ' ' || c == '\t') = false := by
  have h1 : c ≠ ' ' := fun e => by
    subst e
    exact absurd hc (by decide)
  have h2 : c ≠ '\t' := fun e => by
    subst e
    exact absurd hc (by decide)
  simp [h1, h2]

theorem dropWhile_cons_false {p : Char → Bool} {a : Char} {l : List Char}
    (h : p a = false) : List.dropWhile p (a :: l) = a :: l := by
  rw [List.dropWhile_cons, h]
  simp

theorem scanF_fmt4 (q : ℚ) (rest : List Char)
    (hrest : ∀ b, rest.head? = some b → isDig b = false) :
    scanF (fmt4Chars q ++ rest) = (some (round4 q), rest) := by
  unfold fmt4Chars
  dsimp only
  split
  · rename_i hn
    have hL : ('-' :: (toDigits ((round (q * 10000)).natAbs / 10000) ++
        '.' :: pad4 ((round (q * 10000)).natAbs % 10000))) ++ rest =
        '-' :: (toDigits ((round (q * 10000)).natAbs / 10000) ++
          '.' :: (pad4 ((round (q * 10000)).natAbs % 10000) ++ rest)) := by
      simp
    rw [hL]
    unfold scanF
    rw [dropWhile_cons_false (by decide)]
    dsimp only
    rw [if_pos rfl]
    rw [scanMag_fmt (-1) ((round (q * 10000)).natAbs) rest hrest]
    have hm : (((round (q * 10000)).natAbs : ℕ) : ℚ) = -((round (q * 10000) : ℤ) : ℚ) := by
      rw [Int.cast_natAbs, abs_of_neg hn, Int.cast_neg]
    unfold round4
    rw [hm]
    congr 1
    congr 1
    ring
  · rename_i hn
    rcases htd : toDigits ((round (q * 10000)).natAbs / 10000) with _ | ⟨c, t⟩
    · exact absurd htd (toDigits_ne_nil _)
    · have hcd : isDig c = true := by
        refine toDigits_digits ((round (q * 10000)).natAbs / 10000) c ?_
        rw [htd]
        exact List.mem_cons_self c t
      have hL : ((c :: t) ++ '.' :: pad4 ((round (q * 10000)).natAbs % 10000)) ++ rest =
          c :: (t ++ '.' :: (pad4 ((round (q * 10000)).natAbs % 10000) ++ rest)) := by
        simp
      rw [hL]
      unfold scanF
      rw [dropWhile_cons_false (isDig_not_blank hcd)]
      dsimp only
      rw [if_neg (fun e => by subst e; exact absurd hcd (by decide)),
        if_neg (fun e => by subst e; exact absurd hcd (by decide))]
      have hback : c :: (t ++ '.' :: (pad4 ((round (q * 10000)).natAbs % 10000) ++ rest)) =
          toDigits ((round (q * 10000)).natAbs / 10000) ++
            '.' :: (pad4 ((round (q * 10000)).natAbs % 10000) ++ rest) := by
        rw [htd]
        rfl
      rw [hback, scanMag_fmt 1 ((round (q * 10000)).natAbs) rest hrest]
      have hm : (((round (q * 10000)).natAbs : ℕ) : ℚ) = ((round (q * 10000) : ℤ) : ℚ) := by
        rw [Int.cast_natAbs, abs_of_nonneg (not_lt.mp hn)]
      unfold round4
      rw [hm]
      congr 1
      congr 1
      ring

theorem parseRecord_fmtLine (t v a : ℚ) :
    parseRecord (fmtLine t v a) = some (round4 t, round4 v, round4 a) := by
  unfold parseRecord fmtLine parseRecordChars
  dsimp only
  have h1 : ∀ b : Char, ('\t' :: (fmt4Chars v ++ '\t' :: fmt4Chars a)).head? = some b →
      isDig b = false := by
    intro b hb
    rw [List.head?_cons] at hb
    injection hb with hb
    subst hb
    decide
  have h2 : ∀ b : Char, ('\t' :: fmt4Chars a).head? = some b → isDig b = false := by
    intro b hb
    rw [List.head?_cons] at hb
    injection hb with hb
    subst hb
    decide
  have hsh : (fmt4Chars t ++ '\t' :: fmt4Chars v) ++ '\t' :: fmt4Chars a =
      fmt4Chars t ++ '\t' :: (fmt4Chars v ++ '\t' :: fmt4Chars a) := by
    simp
  rw [hsh, scanF_fmt4 t _ h1]
  dsimp only
  rw [if_pos rfl]
  rw [scanF_fmt4 v _ h2]
  dsimp only
  rw [if_pos rfl]
  rw [← List.append_nil (fmt4Chars a), scanF_fmt4 a [] (by intro b hb; simp at hb)]

theorem fmtLine3_ne_empty (r : ℚ × ℚ × ℚ) : fmtLine3 r ≠ "" := by
  unfold fmtLine3 fmtLine
  intro h
  have h2 := congrArg String.data h
  simp at h2

theorem writeSamples_buf : ∀ (xs : List (ℚ × ℚ × ℚ)) (f : FileState),
    writeSamples f xs =
      { disk := f.disk, buf := f.buf ++ xs.map fmtLine3, closed := f.closed } := by
  intro xs
  induction xs with
  | nil =>
    intro f
    simp [writeSamples]
  | cons r xs ih =>
    intro f
    show writeSamples (fwrite f [fmtLine3 r]) xs = _
    rw [ih]
    simp [fwrite]

theorem parseRecords_map : ∀ (zs : List (ℚ × ℚ × ℚ)),
    (zs.map fmtLine3).map parseRecord = zs.map (fun r => some (round4Triple r)) := by
  intro zs
  induction zs with
  | nil => rfl
  | cons r zs ih =>
    simp only [List.map_cons, ih, List.cons.injEq, and_true]
    show parseRecord (fmtLine r.1 r.2.1 r.2.2) = _
    rw [parseRecord_fmtLine]
    rfl

theorem filter_records : ∀ (zs : List (ℚ × ℚ × ℚ)),
    (zs.map fmtLine3).filter (fun l => !(l == "")) = zs.map fmtLine3 := by
  intro zs
  refine List.filter_eq_self.mpr ?_
  intro l hl
  obtain ⟨r, _, rfl⟩ := List.mem_map.mp hl
  have h : (fmtLine3 r == "") = false := by
    cases he : fmtLine3 r == "" with
    | false => rfl
    | true => exact absurd (eq_of_beq he) (fmtLine3_ne_empty r)
  rw [h]
  rfl

/-! ## Helper lemmas: the ramp state machine -/

theorem stepQ_pos {r : ℤ} (hr : 0 < r) : 0 < stepQ r := by
  unfold stepQ
  positivity

theorem stepQ_neg_of_neg {r : ℤ} (hr : r < 0) : stepQ r < 0 := by
  unfold stepQ
  have : (r : ℚ) < 0 := by exact_mod_cast hr
  linarith

theorem stepQ_neg (r : ℤ) : stepQ (-r) = -stepQ r := by
  unfold stepQ
  push_cast
  ring

theorem boundReached_false_up {cfg : Config} {x : ℚ} {r : ℤ} (d a : Bool)
    (hr : 0 < r) (hx : x ≤ cfg.max_volt) : boundReached cfg ⟨x, r, d, a⟩ = false := by
  unfold boundReached
  dsimp only
  rw [decide_eq_false_iff_not]
  rintro (⟨_, h⟩ | ⟨hneg, _⟩)
  · exact absurd hx (not_le.mpr h)
  · omega

theorem boundReached_true_up {cfg : Config} {x : ℚ} {r : ℤ} (d a : Bool)
    (hr : 0 < r) (hx : cfg.max_volt < x) : boundReached cfg ⟨x, r, d, a⟩ = true := by
  unfold boundReached
  dsimp only
  rw [decide_eq_true_eq]
  exact Or.inl ⟨hr, hx⟩

theorem boundReached_false_down {cfg : Config} {x : ℚ} {r : ℤ} (d a : Bool)
    (hr : r < 0) (hx : cfg.set_volt ≤ x) : boundReached cfg ⟨x, r, d, a⟩ = false := by
  unfold boundReached
  dsimp only
  rw [decide_eq_false_iff_not]
  rintro (⟨hpos, _⟩ | ⟨_, h⟩)
  · omega
  · exact absurd hx (not_le.mpr h)

theorem boundReached_true_down {cfg : Config} {x : ℚ} {r : ℤ} (d a : Bool)
    (hr : r < 0) (hx : x < cfg.set_volt) : boundReached cfg ⟨x, r, d, a⟩ = true := by
  unfold boundReached
  dsimp only
  rw [decide_eq_true_eq]
  exact Or.inr ⟨hr, hx⟩

theorem rampCycle_apply {cfg : Config} {x : ℚ} {r : ℤ} {d a : Bool}
    (h : boundReached cfg ⟨x, r, d, a⟩ = false) :
    rampCycle cfg ⟨x, r, d, a⟩ =
      (RampDecision.apply (x + stepQ r), ⟨x + stepQ r, r, d, a⟩) := by
  simp [rampCycle, h]

theorem rampCycle_terminate {cfg : Config} {x : ℚ} {r : ℤ} {a : Bool}
    (h : boundReached cfg ⟨x, r, false, a⟩ = true) :
    rampCycle cfg ⟨x, r, false, a⟩ = (RampDecision.terminate, ⟨x, r, false, a⟩) := by
  simp [rampCycle, h]

theorem rampCycle_reverse {cfg : Config} {x : ℚ} {r : ℤ} {a : Bool}
    (h : boundReached cfg ⟨x, r, true, a⟩ = true) :
    rampCycle cfg ⟨x, r, true, a⟩ =
      (RampDecision.reverse (x + stepQ (-r)), ⟨x + stepQ (-r), -r, false, true⟩) := by
  simp [rampCycle, h]

theorem rampRun_succ_terminate {cfg : Config} {s s' : RampSt} (n : ℕ)
    (h : rampCycle cfg s = (RampDecision.terminate, s')) :
    rampRun cfg s (n + 1) = ([RampDecision.terminate], s') := by
  simp [rampRun, h]

theorem rampRun_succ_apply {cfg : Config} {s s' : RampSt} {v : ℚ} (n : ℕ)
    (h : rampCycle cfg s = (RampDecision.apply v, s')) :
    rampRun cfg s (n + 1) =
      (RampDecision.apply v :: (rampRun cfg s' n).1, (rampRun cfg s' n).2) := by
  simp [rampRun, h]

theorem rampRun_succ_reverse {cfg : Config} {s s' : RampSt} {v : ℚ} (n : ℕ)
    (h : rampCycle cfg s = (RampDecision.reverse v, s')) :
    rampRun cfg s (n + 1) =
      (RampDecision.reverse v :: (rampRun cfg s' n).1, (rampRun cfg s' n).2) := by
  simp [rampRun, h]

theorem countReverse_nil : countReverse [] = 0 := rfl

theorem countReverse_cons_apply (v : ℚ) (l : List RampDecision) :
    countReverse (RampDecision.apply v :: l) = countReverse l := by
  simp [countReverse, List.filter, isReverse]

theorem countReverse_cons_reverse (v : ℚ) (l : List RampDecision) :
    countReverse (RampDecision.reverse v :: l) = countReverse l + 1 := by
  simp [countReverse, List.filter, isReverse]

theorem countReverse_cons_terminate (l : List RampDecision) :
    countReverse (RampDecision.terminate :: l) = countReverse l := by
  simp [countReverse, List.filter, isReverse]

/-- Single-phase upward run (`ramp > 0`, `dramp` already consumed or never
requested): from any `ramp_volt = x ≤ max_volt` that overshoots within
`n + 1` steps, the loop terminates within `n + 2` further cycles, every
setpoint applied on the way lies in `(x, max_volt + step]`, no reversal
occurs, and the step is never modified. -/
theorem run_up (cfg : Config) (r : ℤ) (hr : 0 < r) :
    ∀ (n : ℕ) (x : ℚ) (a : Bool), x ≤ cfg.max_volt →
      cfg.max_volt < x + ((n : ℚ) + 1) * stepQ r →
      RampDecision.terminate ∈ rampTrace cfg ⟨x, r, false, a⟩ (n + 2) ∧
      (∀ v, RampDecision.apply v ∈ rampTrace cfg ⟨x, r, false, a⟩ (n + 2) →
        x < v ∧ v ≤ cfg.max_volt + stepQ r) ∧
      countReverse (rampTrace cfg ⟨x, r, false, a⟩ (n + 2)) = 0 ∧
      (rampRun cfg ⟨x, r, false, a⟩ (n + 2)).2.ramp = r := by
  have hs : 0 < stepQ r := stepQ_pos hr
  have two_cycle : ∀ (m : ℕ) (x : ℚ) (a : Bool), x ≤ cfg.max_volt →
      cfg.max_volt < x + stepQ r →
      rampRun cfg ⟨x, r, false, a⟩ (m + 2) =
        ([RampDecision.apply (x + stepQ r), RampDecision.terminate],
          ⟨x + stepQ r, r, false, a⟩) := by
    intro m x a hx hx1
    have hc0 := rampCycle_apply (boundReached_false_up false a hr hx)
    have hc1 := rampCycle_terminate (boundReached_true_up false a hr hx1)
    rw [rampRun_succ_apply (m + 1) hc0, rampRun_succ_terminate m hc1]
  intro n
  induction n with
  | zero =>
    intro x a hx h1
    have hx1 : cfg.max_volt < x + stepQ r := by push_cast at h1; linarith
    have e := two_cycle 0 x a hx hx1
    refine ⟨?_, ?_, ?_, ?_⟩
    · simp [rampTrace, e]
    · intro v hv
      simp only [rampTrace, e] at hv
      rcases List.mem_cons.mp hv with hv | hv
      · obtain rfl : v = x + stepQ r := by injection hv
        exact ⟨by linarith, by linarith⟩
      · simp at hv
    · simp only [rampTrace, e]
      rw [countReverse_cons_apply, countReverse_cons_terminate, countReverse_nil]
    · rw [e]
  | succ n ih =>
    intro x a hx h1
    rcases le_or_lt (x + stepQ r) cfg.max_volt with hx2 | hx2
    · have hc0 :=
        rampCycle_apply (boundReached_false_up false a hr hx)
      have h2 : cfg.max_volt < (x + stepQ r) + ((n : ℚ) + 1) * stepQ r := by
        push_cast at h1 ⊢
        linarith
      obtain ⟨hT, hV, hC, hR⟩ := ih (x + stepQ r) a hx2 h2
      have e := rampRun_succ_apply (n + 2) hc0
      refine ⟨?_, ?_, ?_, ?_⟩
      · simp only [rampTrace, e]
        exact List.mem_cons_of_mem _ hT
      · intro v hv
        simp only [rampTrace, e] at hv
        rcases List.mem_cons.mp hv with hv | hv
        · obtain rfl : v = x + stepQ r := by injection hv
          exact ⟨by linarith, by linarith⟩
        · obtain ⟨h3, h4⟩ := hV v hv
          exact ⟨by linarith, h4⟩
      · simp only [rampTrace, e]
        rw [countReverse_cons_apply]
        exact hC
      · rw [e]
        exact hR
    · have e := two_cycle (n + 1) x a hx hx2
      refine ⟨?_, ?_, ?_, ?_⟩
      · simp [rampTrace, e]
      · intro v hv
        simp only [rampTrace, e] at hv
        rcases List.mem_cons.mp hv with hv | hv
        · obtain rfl : v = x + stepQ r := by injection hv
          exact ⟨by linarith, by linarith⟩
        · simp at hv
      · simp only [rampTrace, e]
        rw [countReverse_cons_apply, countReverse_cons_terminate, countReverse_nil]
      · rw [e]

/-- Single-phase downward run (`ramp < 0`): mirror of `run_up`.  From any
`ramp_volt = x ≥ set_volt` that undershoots within `n + 1` steps, the loop
terminates within `n + 2` cycles, every setpoint applied lies in
`[set_volt + step, x)` (the step is negative), no reversal occurs, and the
step is never modified. -/
theorem run_down (cfg : Config) (r : ℤ) (hr : r < 0) :
    ∀ (n : ℕ) (x : ℚ) (a : Bool), cfg.set_volt ≤ x →
      x + ((n : ℚ) + 1) * stepQ r < cfg.set_volt →
      RampDecision.terminate ∈ rampTrace cfg ⟨x, r, false, a⟩ (n + 2) ∧
      (∀ v, RampDecision.apply v ∈ rampTrace cfg ⟨x, r, false, a⟩ (n + 2) →
        v < x ∧ cfg.set_volt + stepQ r ≤ v) ∧
      countReverse (rampTrace cfg ⟨x, r, false, a⟩ (n + 2)) = 0 ∧
      (rampRun cfg ⟨x, r, false, a⟩ (n + 2)).2.ramp = r := by
  have hs : stepQ r < 0 := stepQ_neg_of_neg hr
  have two_cycle : ∀ (m : ℕ) (x : ℚ) (a : Bool), cfg.set_volt ≤ x →
      x + stepQ r < cfg.set_volt →
      rampRun cfg ⟨x, r, false, a⟩ (m + 2) =
        ([RampDecision.apply (x + stepQ r), RampDecision.terminate],
          ⟨x + stepQ r, r, false, a⟩) := by
    intro m x a hx hx1
    have hc0 := rampCycle_apply (boundReached_false_down false a hr hx)
    have hc1 := rampCycle_terminate (boundReached_true_down false a hr hx1)
    rw [rampRun_succ_apply (m + 1) hc0, rampRun_succ_terminate m hc1]
  intro n
  induction n with
  | zero =>
    intro x a hx h1
    have hx1 : x + stepQ r < cfg.set_volt := by push_cast at h1; linarith
    have e := two_cycle 0 x a hx hx1
    refine ⟨?_, ?_, ?_, ?_⟩
    · simp [rampTrace, e]
    · intro v hv
      simp only [rampTrace, e] at hv
      rcases List.mem_cons.mp hv with hv | hv
      · obtain rfl : v = x + stepQ r := by injection hv
        exact ⟨by linarith, by linarith⟩
      · simp at hv
    · simp only [rampTrace, e]
      rw [countReverse_cons_apply, countReverse_cons_terminate, countReverse_nil]
    · rw [e]
  | succ n ih =>
    intro x a hx h1
    rcases le_or_lt cfg.set_volt (x + stepQ r) with hx2 | hx2
    · have hc0 :=
        rampCycle_apply (boundReached_false_down false a hr hx)
      have h2 : (x + stepQ r) + ((n : ℚ) + 1) * stepQ r < cfg.set_volt := by
        push_cast at h1 ⊢
        linarith
      obtain ⟨hT, hV, hC, hR⟩ := ih (x + stepQ r) a hx2 h2
      have e := rampRun_succ_apply (n + 2) hc0
      refine ⟨?_, ?_, ?_, ?_⟩
      · simp only [rampTrace, e]
        exact List.mem_cons_of_mem _ hT
      · intro v hv
        simp only [rampTrace, e] at hv
        rcases List.mem_cons.mp hv with hv | hv
        · obtain rfl : v = x + stepQ r := by injection hv
          exact ⟨by linarith, by linarith⟩
        · obtain ⟨h3, h4⟩ := hV v hv
          exact ⟨by linarith, h4⟩
      · simp only [rampTrace, e]
        rw [countReverse_cons_apply]
        exact hC
      · rw [e]
        exact hR
    · have e := two_cycle (n + 1) x a hx hx2
      refine ⟨?_, ?_, ?_, ?_⟩
      · simp [rampTrace, e]
      · intro v hv
        simp only [rampTrace, e] at hv
        rcases List.mem_cons.mp hv with hv | hv
        · obtain rfl : v = x + stepQ r := by injection hv
          exact ⟨by linarith, by linarith⟩
        · simp at hv
      · simp only [rampTrace, e]
        rw [countReverse_cons_apply, countReverse_cons_terminate, countReverse_nil]
      · rw [e]

/-- Once the trace of a run contains `terminate`, giving the loop more
fuel changes nothing: the run has ended. -/
theorem rampRun_stable (cfg : Config) :
    ∀ (n m : ℕ) (s : RampSt), RampDecision.terminate ∈ (rampRun cfg s n).1 →
      n ≤ m → rampRun cfg s m = rampRun cfg s n := by
  intro n
  induction n with
  | zero =>
    intro m s h _
    simp [rampRun] at h
  | succ n ih =>
    intro m s h hnm
    obtain ⟨m', rfl⟩ : ∃ m', m = m' + 1 := ⟨m - 1, by omega⟩
    have hnm' : n ≤ m' := by omega
    rcases hc : rampCycle cfg s with ⟨d, s'⟩
    cases d with
    | terminate =>
      rw [rampRun_succ_terminate m' hc, rampRun_succ_terminate n hc]
    | apply v =>
      rw [rampRun_succ_apply n hc] at h
      have h' : RampDecision.terminate ∈ (rampRun cfg s' n).1 := by
        rcases List.mem_cons.mp h with h | h
        · exact absurd h (by simp)
        · exact h
      rw [rampRun_succ_apply m' hc, rampRun_succ_apply n hc, ih m' s' h' hnm']
    | reverse v =>
      rw [rampRun_succ_reverse n hc] at h
      have h' : RampDecision.terminate ∈ (rampRun cfg s' n).1 := by
        rcases List.mem_cons.mp h with h | h
        · exact absurd h (by simp)
        · exact h
      rw [rampRun_succ_reverse m' hc, rampRun_succ_reverse n hc, ih m' s' h' hnm']

/-- For a positive step there is always a number of steps after which any
fixed distance is exceeded. -/
theorem exists_steps (q s : ℚ) (hs : 0 < s) : ∃ n : ℕ, q < ((n : ℚ) + 1) * s := by
  obtain ⟨n, hn⟩ := exists_nat_gt (q / s)
  refine ⟨n, ?_⟩
  have h1 : q / s * s < (n : ℚ) * s := mul_lt_mul_of_pos_right hn hs
  have h2 : q / s * s = q := div_mul_cancel₀ q (ne_of_gt hs)
  nlinarith

/-- The shared tail of a dual run, upward phase: from the last in-bound
value `x` (so `x + step` overshoots), the loop applies `x + step`,
reverses (flipping the step and clearing `dramp`), applies `x` again and
then runs the downward phase to termination, never reversing again. -/
theorem dual_reversal_up (cfg : Config) (r : ℤ) (hr : 0 < r)
    (x : ℚ) (a : Bool) (hx : x ≤ cfg.max_volt) (hlt : cfg.max_volt < x + stepQ r) :
    ∃ N, RampDecision.terminate ∈ rampTrace cfg ⟨x, r, true, a⟩ N ∧
      countReverse (rampTrace cfg ⟨x, r, true, a⟩ N) = 1 ∧
      (rampRun cfg ⟨x, r, true, a⟩ N).2.ramp = -r := by
  have hs : 0 < stepQ r := stepQ_pos hr
  have hc0 := rampCycle_apply (boundReached_false_up true a hr hx)
  have hc1 := rampCycle_reverse (boundReached_true_up true a hr hlt)
  have hxx : x + stepQ r + stepQ (-r) = x := by rw [stepQ_neg]; ring
  rcases lt_or_le x cfg.set_volt with hx0 | hx0
  · -- the reversed value is already below the lower bound: immediate stop
    have hc2 : rampCycle cfg ⟨x, -r, false, true⟩ =
        (RampDecision.terminate, ⟨x, -r, false, true⟩) :=
      rampCycle_terminate (boundReached_true_down false true (by omega) hx0)
    refine ⟨3, ?_⟩
    have e : rampRun cfg ⟨x, r, true, a⟩ 3 =
        (RampDecision.apply (x + stepQ r) :: RampDecision.reverse x ::
          [RampDecision.terminate], ⟨x, -r, false, true⟩) := by
      rw [rampRun_succ_apply 2 hc0, rampRun_succ_reverse 1 (by rw [hc1, hxx]),
        rampRun_succ_terminate 0 hc2]
    refine ⟨by simp [rampTrace, e], ?_, by rw [e]⟩
    simp only [rampTrace, e]
    rw [countReverse_cons_apply, countReverse_cons_reverse, countReverse_cons_terminate,
      countReverse_nil]
  · -- run the downward phase from `x`
    obtain ⟨n, hn⟩ := exists_steps (x - cfg.set_volt) (stepQ r) hs
    have hend : x + ((n : ℚ) + 1) * stepQ (-r) < cfg.set_volt := by
      rw [stepQ_neg]
      have hrw : x + ((n : ℚ) + 1) * -stepQ r = x - ((n : ℚ) + 1) * stepQ r := by ring
      rw [hrw]
      linarith
    obtain ⟨hT, _, hC, hR⟩ := run_down cfg (-r) (by omega) n x true hx0 hend
    refine ⟨n + 4, ?_⟩
    have e : rampRun cfg ⟨x, r, true, a⟩ (n + 4) =
        (RampDecision.apply (x + stepQ r) :: RampDecision.reverse x ::
          (rampRun cfg ⟨x, -r, false, true⟩ (n + 2)).1,
          (rampRun cfg ⟨x, -r, false, true⟩ (n + 2)).2) := by
      rw [rampRun_succ_apply (n + 3) hc0, rampRun_succ_reverse (n + 2) (by rw [hc1, hxx])]
    refine ⟨?_, ?_, ?_⟩
    · simp only [rampTrace, e]
      exact List.mem_cons_of_mem _ (List.mem_cons_of_mem _ hT)
    · simp only [rampTrace, e]
      rw [countReverse_cons_apply, countReverse_cons_reverse]
      simp only [rampTrace] at hC
      rw [hC]
    · rw [e]
      exact hR

/-- The shared tail of a dual run, downward phase: mirror of
`dual_reversal_up`. -/
theorem dual_reversal_down (cfg : Config) (r : ℤ) (hr : r < 0)
    (x : ℚ) (a : Bool) (hx : cfg.set_volt ≤ x) (hlt : x + stepQ r < cfg.set_volt) :
    ∃ N, RampDecision.terminate ∈ rampTrace cfg ⟨x, r, true, a⟩ N ∧
      countReverse (rampTrace cfg ⟨x, r, true, a⟩ N) = 1 ∧
      (rampRun cfg ⟨x, r, true, a⟩ N).2.ramp = -r := by
  have hs : stepQ r < 0 := stepQ_neg_of_neg hr
  have hc0 := rampCycle_apply (boundReached_false_down true a hr hx)
  have hc1 := rampCycle_reverse (boundReached_true_down true a hr hlt)
  have hxx : x + stepQ r + stepQ (-r) = x := by rw [stepQ_neg]; ring
  rcases lt_or_le cfg.max_volt x with hx0 | hx0
  · have hc2 : rampCycle cfg ⟨x, -r, false, true⟩ =
        (RampDecision.terminate, ⟨x, -r, false, true⟩) :=
      rampCycle_terminate (boundReached_true_up false true (by omega) hx0)
    refine ⟨3, ?_⟩
    have e : rampRun cfg ⟨x, r, true, a⟩ 3 =
        (RampDecision.apply (x + stepQ r) :: RampDecision.reverse x ::
          [RampDecision.terminate], ⟨x, -r, false, true⟩) := by
      rw [rampRun_succ_apply 2 hc0, rampRun_succ_reverse 1 (by rw [hc1, hxx]),
        rampRun_succ_terminate 0 hc2]
    refine ⟨by simp [rampTrace, e], ?_, by rw [e]⟩
    simp only [rampTrace, e]
    rw [countReverse_cons_apply, countReverse_cons_reverse, countReverse_cons_terminate,
      countReverse_nil]
  · obtain ⟨n, hn⟩ := exists_steps (cfg.max_volt - x) (stepQ (-r)) (by rw [stepQ_neg]; linarith)
    have hend : cfg.max_volt < x + ((n : ℚ) + 1) * stepQ (-r) := by linarith
    obtain ⟨hT, _, hC, hR⟩ := run_up cfg (-r) (by omega) n x true hx0 hend
    refine ⟨n + 4, ?_⟩
    have e : rampRun cfg ⟨x, r, true, a⟩ (n + 4) =
        (RampDecision.apply (x + stepQ r) :: RampDecision.reverse x ::
          (rampRun cfg ⟨x, -r, false, true⟩ (n + 2)).1,
          (rampRun cfg ⟨x, -r, false, true⟩ (n + 2)).2) := by
      rw [rampRun_succ_apply (n + 3) hc0, rampRun_succ_reverse (n + 2) (by rw [hc1, hxx])]
    refine ⟨?_, ?_, ?_⟩
    · simp only [rampTrace, e]
      exact List.mem_cons_of_mem _ (List.mem_cons_of_mem _ hT)
    · simp only [rampTrace, e]
      rw [countReverse_cons_apply, countReverse_cons_reverse]
      simp only [rampTrace] at hC
      rw [hC]
    · rw [e]
      exact hR

/-- Dual run, upward outbound phase: walk up until the bound is crossed,
then `dual_reversal_up`. -/
theorem dual_up (cfg : Config) (r : ℤ) (hr : 0 < r) :
    ∀ (n : ℕ) (x : ℚ) (a : Bool), x ≤ cfg.max_volt →
      cfg.max_volt < x + ((n : ℚ) + 1) * stepQ r →
      ∃ N, RampDecision.terminate ∈ rampTrace cfg ⟨x, r, true, a⟩ N ∧
        countReverse (rampTrace cfg ⟨x, r, true, a⟩ N) = 1 ∧
        (rampRun cfg ⟨x, r, true, a⟩ N).2.ramp = -r := by
  have hs : 0 < stepQ r := stepQ_pos hr
  intro n
  induction n with
  | zero =>
    intro x a hx h1
    exact dual_reversal_up cfg r hr x a hx (by push_cast at h1; linarith)
  | succ n ih =>
    intro x a hx h1
    rcases le_or_lt (x + stepQ r) cfg.max_volt with hx2 | hx2
    · have hc0 := rampCycle_apply (boundReached_false_up true a hr hx)
      have h2 : cfg.max_volt < (x + stepQ r) + ((n : ℚ) + 1) * stepQ r := by
        push_cast at h1 ⊢
        linarith
      obtain ⟨N, hT, hC, hR⟩ := ih (x + stepQ r) a hx2 h2
      refine ⟨N + 1, ?_, ?_, ?_⟩
      · simp only [rampTrace, rampRun_succ_apply N hc0]
        exact List.mem_cons_of_mem _ hT
      · simp only [rampTrace, rampRun_succ_apply N hc0]
        rw [countReverse_cons_apply]
        exact hC
      · rw [rampRun_succ_apply N hc0]
        exact hR
    · exact dual_reversal_up cfg r hr x a hx hx2

/-- Dual run, downward outbound phase: mirror of `dual_up`. -/
theorem dual_down (cfg : Config) (r : ℤ) (hr : r < 0) :
    ∀ (n : ℕ) (x : ℚ) (a : Bool), cfg.set_volt ≤ x →
      x + ((n : ℚ) + 1) * stepQ r < cfg.set_volt →
      ∃ N, RampDecision.terminate ∈ rampTrace cfg ⟨x, r, true, a⟩ N ∧
        countReverse (rampTrace cfg ⟨x, r, true, a⟩ N) = 1 ∧
        (rampRun cfg ⟨x, r, true, a⟩ N).2.ramp = -r := by
  have hs : stepQ r < 0 := stepQ_neg_of_neg hr
  intro n
  induction n with
  | zero =>
    intro x a hx h1
    exact dual_reversal_down cfg r hr x a hx (by push_cast at h1; linarith)
  | succ n ih =>
    intro x a hx h1
    rcases le_or_lt cfg.set_volt (x + stepQ r) with hx2 | hx2
    · have hc0 := rampCycle_apply (boundReached_false_down true a hr hx)
      have h2 : (x + stepQ r) + ((n : ℚ) + 1) * stepQ r < cfg.set_volt := by
        push_cast at h1 ⊢
        linarith
      obtain ⟨N, hT, hC, hR⟩ := ih (x + stepQ r) a hx2 h2
      refine ⟨N + 1, ?_, ?_, ?_⟩
      · simp only [rampTrace, rampRun_succ_apply N hc0]
        exact List.mem_cons_of_mem _ hT
      · simp only [rampTrace, rampRun_succ_apply N hc0]
        rw [countReverse_cons_apply]
        exact hC
      · rw [rampRun_succ_apply N hc0]
        exact hR
    · exact dual_reversal_down cfg r hr x a hx hx2

/-! ## Helper lemmas: loop resource bookkeeping -/

theorem preservesRes_trans {s s' s'' : RunState}
    (h1 : preservesRes s s') (h2 : preservesRes s' s'') : preservesRes s s'' := by
  obtain ⟨a1, b1, c1, d1, e1⟩ := h1
  obtain ⟨a2, b2, c2, d2, e2⟩ := h2
  exact ⟨a2.trans a1, b2.trans b1, c2.trans c1, d2.trans d1, e2.trans e1⟩

theorem errCleanup_after {s s' s'' : RunState}
    (h1 : preservesRes s s') (h2 : errCleanup s' s'') : errCleanup s s'' := by
  obtain ⟨a1, b1, c1, d1, e1⟩ := h1
  obtain ⟨a2, b2, c2, d2, e2⟩ := h2
  exact ⟨a2, b2, c2.trans b1, d2.trans b1, e2.trans a1⟩

theorem failExit_errCleanup {s s' : RunState}
    (hg : s'.gpOpen = s.gpOpen) (hi : s'.instClosed = s.instClosed) :
    errCleanup s (failExit s') := by
  unfold errCleanup failExit fcloseF
  exact ⟨rfl, rfl, hg, hg, hi⟩

theorem sampleRest_cases (cfg : Config) (s2 : RunState) (t : ℚ) (k : Option ℕ) :
    ∃ s6, (sampleRest cfg s2 t k = StepRes.cont s6 ∨
      sampleRest cfg s2 t k = StepRes.exitNormal s6) ∧ preservesRes s2 s6 := by
  unfold sampleRest
  dsimp only
  split <;> split <;>
    first
    | exact ⟨_, Or.inr rfl, ⟨rfl, rfl, rfl, rfl, rfl⟩⟩
    | exact ⟨_, Or.inl rfl, ⟨rfl, rfl, rfl, rfl, rfl⟩⟩

theorem sample_cases (cfg : Config) (s : RunState) (inp : CycleInput) :
    (∃ s', sample cfg s inp = StepRes.exitErr s' ∧ errCleanup s s') ∨
    (∃ s', (sample cfg s inp = StepRes.cont s' ∨ sample cfg s inp = StepRes.exitNormal s') ∧
      preservesRes s s') := by
  rcases hv : inp.vout with _ | sv
  · have he : sample cfg s inp = StepRes.exitErr (failExit s) := by
      unfold sample
      rw [hv]
    rw [he]
    exact Or.inl ⟨_, rfl, failExit_errCleanup rfl rfl⟩
  · rcases hio : inp.iout with _ | sa
    · have he : sample cfg s inp = StepRes.exitErr (failExit { s with volt := (scanFloat sv).getD s.volt }) := by
        unfold sample
        rw [hv, hio]
      rw [he]
      exact Or.inl ⟨_, rfl, failExit_errCleanup rfl rfl⟩
    · have he : sample cfg s inp = sampleRest cfg { s with volt := (scanFloat sv).getD s.volt, amp := (scanFloat sa).getD s.amp } inp.t1 inp.key := by
        unfold sample
        rw [hv, hio]
      rw [he]
      obtain ⟨s6, hor, hpres⟩ := sampleRest_cases cfg { s with volt := (scanFloat sv).getD s.volt, amp := (scanFloat sa).getD s.amp } inp.t1 inp.key
      exact Or.inr ⟨s6, hor, preservesRes_trans ⟨rfl, rfl, rfl, rfl, rfl⟩ hpres⟩

theorem vsetAndSample_cases (cfg : Config) (s : RunState) (inp : CycleInput) (v : ℚ) :
    (∃ s', vsetAndSample cfg s inp v = StepRes.exitErr s' ∧ errCleanup s s') ∨
    (∃ s', (vsetAndSample cfg s inp v = StepRes.cont s' ∨
      vsetAndSample cfg s inp v = StepRes.exitNormal s') ∧ preservesRes s s') := by
  unfold vsetAndSample
  split
  · rcases sample_cases cfg { s with vsets := s.vsets ++ [v] } inp with ⟨s', he, hcl⟩ | ⟨s', hor, hp⟩
    · exact Or.inl ⟨s', he, errCleanup_after ⟨rfl, rfl, rfl, rfl, rfl⟩ hcl⟩
    · exact Or.inr ⟨s', hor, preservesRes_trans ⟨rfl, rfl, rfl, rfl, rfl⟩ hp⟩
  · exact Or.inl ⟨_, rfl, failExit_errCleanup rfl rfl⟩

theorem cycle_cases (cfg : Config) (s : RunState) (inp : CycleInput) :
    (∃ s', cycle cfg s inp = StepRes.exitErr s' ∧ errCleanup s s') ∨
    (∃ s', (cycle cfg s inp = StepRes.cont s' ∨ cycle cfg s inp = StepRes.exitNormal s') ∧
      preservesRes s s') := by
  unfold cycle
  split
  · exact sample_cases cfg s inp
  · rcases hc : rampCycle cfg s.rs with ⟨d, rs'⟩
    cases d with
    | terminate =>
      exact Or.inr ⟨_, Or.inr rfl, ⟨rfl, rfl, rfl, rfl, rfl⟩⟩
    | reverse v =>
      rcases vsetAndSample_cases cfg { s with rs := rs', file := fwrite s.file ["", ""] } inp v
        with ⟨s', he, hcl⟩ | ⟨s', hor, hp⟩
      · exact Or.inl ⟨s', he, errCleanup_after ⟨rfl, rfl, rfl, rfl, rfl⟩ hcl⟩
      · exact Or.inr ⟨s', hor, preservesRes_trans ⟨rfl, rfl, rfl, rfl, rfl⟩ hp⟩
    | apply v =>
      rcases vsetAndSample_cases cfg { s with rs := rs' } inp v
        with ⟨s', he, hcl⟩ | ⟨s', hor, hp⟩
      · exact Or.inl ⟨s', he, errCleanup_after ⟨rfl, rfl, rfl, rfl, rfl⟩ hcl⟩
      · exact Or.inr ⟨s', hor, preservesRes_trans ⟨rfl, rfl, rfl, rfl, rfl⟩ hp⟩

theorem runLoop_cases (cfg : Config) :
    ∀ (inputs : List CycleInput) (s : RunState),
      ((runLoop cfg s inputs).1 = Outcome.errLoop → errCleanup s (runLoop cfg s inputs).2) ∧
      ((runLoop cfg s inputs).1 ≠ Outcome.errLoop → preservesRes s (runLoop cfg s inputs).2) := by
  intro inputs
  induction inputs with
  | nil =>
    intro s
    refine ⟨fun h => ?_, fun _ => ⟨rfl, rfl, rfl, rfl, rfl⟩⟩
    simp [runLoop] at h
  | cons i rest ih =>
    intro s
    rcases cycle_cases cfg s i with ⟨s', he, hcl⟩ | ⟨s', hor, hp⟩
    · have e : runLoop cfg s (i :: rest) = (Outcome.errLoop, s') := by
        simp only [runLoop, he]
      rw [e]
      exact ⟨fun _ => hcl, fun hne => absurd rfl hne⟩
    · rcases hor with hC | hN
      · have e : runLoop cfg s (i :: rest) = runLoop cfg s' rest := by
          simp only [runLoop, hC]
        rw [e]
        exact ⟨fun h2 => errCleanup_after hp ((ih s').1 h2),
          fun h2 => preservesRes_trans hp ((ih s').2 h2)⟩
      · have e : runLoop cfg s (i :: rest) = (Outcome.ok, s') := by
          simp only [runLoop, hN]
        rw [e]
        exact ⟨fun h => by simp at h, fun _ => hp⟩

theorem runLoop_ne_errClose (cfg : Config) :
    ∀ (inputs : List CycleInput) (s : RunState),
      (runLoop cfg s inputs).1 ≠ Outcome.errClose := by
  intro inputs
  induction inputs with
  | nil =>
    intro s
    simp [runLoop]
  | cons i rest ih =>
    intro s
    cases hcy : cycle cfg s i with
    | cont s' =>
      have e : runLoop cfg s (i :: rest) = runLoop cfg s' rest := by
        simp only [runLoop, hcy]
      rw [e]
      exact ih s'
    | exitNormal s' =>
      have e : runLoop cfg s (i :: rest) = (Outcome.ok, s') := by
        simp only [runLoop, hcy]
      rw [e]
      simp
    | exitErr s' =>
      have e : runLoop cfg s (i :: rest) = (Outcome.errLoop, s') := by
        simp only [runLoop, hcy]
      rw [e]
      simp

/-! ## Claim theorems -/

/-- C1, counterexample: with `start_volt = 0`, `end_volt = 5`,
`step_mv = 1000`, `dual = false`, the loop does apply a setpoint beyond
5.0 — the sixth decision applies 6.0 V (and `VSET 6.0` is sent), because
hp6633.c:424 compares the *current* `ramp_volt` (5.0) with `max_volt`
strictly before stepping, so 5.0 > 5.0 fails and one more step is taken. -/
theorem c1_counterexample :
    RampDecision.apply 6 ∈ rampTrace cfgA (initRampSt cfgA) 10 ∧
    (6 : ℚ) ∈ (runMain cfgA "c" "st" "sp" 0 0 true c1Inputs).2.vsets ∧
    (5 : ℚ) < 6 := by decide

/-- C1 (amended): with `start_volt = 0`, `end_volt = 5`, `step_mv = 1000`,
`dual = false`, the per-cycle ramp decisions are exactly
`ApplySetpoint 1.0, …, 5.0, 6.0` — one step beyond the end voltage —
followed by termination, and exactly these six values are sent via
`VSET`. -/
theorem c1_amended_trace :
    rampTrace cfgA (initRampSt cfgA) 10 =
      [RampDecision.apply 1, RampDecision.apply 2, RampDecision.apply 3, RampDecision.apply 4,
       RampDecision.apply 5, RampDecision.apply 6, RampDecision.terminate] ∧
    (runMain cfgA "c" "st" "sp" 0 0 true c1Inputs).2.vsets = [1, 2, 3, 4, 5, 6] := by decide

/-- C2, counterexample: a run in which the `VOUT?` transport succeeds but
the returned text `"junk"` fails to parse does **not** abort: the
`sscanf` result is ignored (hp6633.c:466), the cycle completes using the
stale previous value of `volt` (here its junk initial value 99), the
record `1.0000 TAB 99.0000 TAB 0.5000` is logged, and the run ends
normally (quit key), not with an instrument failure. -/
theorem c2_counterexample :
    scanFloat "junk" = none ∧
    (runMain cfgS "c" "st" "sp" 99 0 true c2Inputs).1 = Outcome.ok ∧
    (runMain cfgS "c" "st" "sp" 99 0 true c2Inputs).2.volt = 99 ∧
    dataRecords (runMain cfgS "c" "st" "sp" 99 0 true c2Inputs).2.file.disk =
      ["1.0000\t99.0000\t0.5000"] := by decide

/-- Whatever `sampleRest` does (flush or not, key or not, exit or
continue), it never changes `volt`. -/
theorem sampleRest_volt (cfg : Config) (s2 : RunState) (t : ℚ) (k : Option ℕ) :
    (resState (sampleRest cfg s2 t k)).volt = s2.volt := by
  unfold sampleRest
  dsimp only
  split <;> split <;> rfl

/-- C2 (amended): only a transport-level failure of `hp663X_read` aborts
the run (with `ERR_INST`); text that fails numeric parsing does *not*
abort — the `sscanf` return value is ignored at hp6633.c:466, so the
cycle continues using the variable's previous (stale) value. -/
theorem c2_amended (cfg : Config) (s : RunState) (inp : CycleInput) :
    (inp.vout = none → sample cfg s inp = StepRes.exitErr (failExit s)) ∧
    (∀ sv, inp.vout = some sv → scanFloat sv = none →
      (resState (sample cfg s inp)).volt = s.volt) := by
  constructor
  · intro h
    simp [sample, h]
  · intro sv hv hp
    rcases hio : inp.iout with _ | sa
    · simp [sample, hv, hio, resState, failExit, hp]
    · simp only [sample, hv, hio, hp, Option.getD_none]
      rw [sampleRest_volt]

/-- C2, witness: the stale-value continuation applied to a concrete
cycle whose `VOUT?` text is `"junk"` and whose previous `volt` is 99. -/
theorem c2_amended_witness :
    (resState (sample cfgS (initState cfgS "c" "st" 99 0)
      { vsetOk := true, t1 := 1, vout := some "junk", iout := some "0.5",
        key := some 113 })).volt = (initState cfgS "c" "st" 99 0).volt :=
  (c2_amended cfgS (initState cfgS "c" "st" 99 0)
    { vsetOk := true, t1 := 1, vout := some "junk", iout := some "0.5", key := some 113 }).2
    "junk" rfl (by decide)

/-- C3, counterexample: when the first `VSET` write of a ramped run
fails, the run exits with `ERR_INST` having closed the dataset file,
closed the gnuplot pipe and restored the keyboard — but `hp663X_close`
is never invoked on this exit path (hp6633.c:442-450 returns without
reaching hp6633.c:517), so the instrument connection is *not* released. -/
theorem c3_counterexample :
    (runMain cfgA "c" "st" "sp" 0 0 true c3Inputs).1 = Outcome.errLoop ∧
    (runMain cfgA "c" "st" "sp" 0 0 true c3Inputs).2.instClosed = false ∧
    (runMain cfgA "c" "st" "sp" 0 0 true c3Inputs).2.file.closed = true ∧
    (runMain cfgA "c" "st" "sp" 0 0 true c3Inputs).2.gpClosed = true ∧
    (runMain cfgA "c" "st" "sp" 0 0 true c3Inputs).2.kbRestored = true := by decide

/-- C4, counterexample: for `start_volt = 0`, `end_volt = 5`,
`step_mv = 1000` the claimed bound is `ceil(5/1) + 1 = 6` calls, but the
sixth call still applies a setpoint (6.0 V) instead of terminating, and
that setpoint lies outside `[start_volt, end_volt]`. -/
theorem c4_counterexample :
    ceilSteps cfgA + 1 = 6 ∧
    RampDecision.terminate ∉ rampTrace cfgA (initRampSt cfgA) 6 ∧
    RampDecision.apply 6 ∈ rampTrace cfgA (initRampSt cfgA) 10 ∧
    ¬((6 : ℚ) ≤ 5) := by decide

/-- C3 (amended): the dataset file, keyboard state and gnuplot pipe are
released on every modelled exit of the run; the instrument connection,
however, is released (`hp663X_close` invoked) *only* on the normal exit
path — on the mid-loop `ERR_INST` exits (failed `VSET` send or failed
`VOUT?`/`IOUT?` query) `hp663X_close` is never called. -/
theorem c3_amended (cfg : Config) (comment startTime stopTime : String) (v0 a0 : ℚ)
    (closeOk : Bool) (inputs : List CycleInput) :
    ((runMain cfg comment startTime stopTime v0 a0 closeOk inputs).1 = Outcome.errLoop →
      released (runMain cfg comment startTime stopTime v0 a0 closeOk inputs).2 ∧
      (runMain cfg comment startTime stopTime v0 a0 closeOk inputs).2.instClosed = false) ∧
    ((runMain cfg comment startTime stopTime v0 a0 closeOk inputs).1 = Outcome.ok ∨
      (runMain cfg comment startTime stopTime v0 a0 closeOk inputs).1 = Outcome.errClose →
      released (runMain cfg comment startTime stopTime v0 a0 closeOk inputs).2 ∧
      (runMain cfg comment startTime stopTime v0 a0 closeOk inputs).2.instClosed = true) := by
  have hcases := runLoop_cases cfg inputs (initState cfg comment startTime v0 a0)
  have hnec := runLoop_ne_errClose cfg inputs (initState cfg comment startTime v0 a0)
  rcases hp : runLoop cfg (initState cfg comment startTime v0 a0) inputs with ⟨o, t⟩
  rw [hp] at hcases hnec
  cases o with
  | errLoop =>
    have hrm : runMain cfg comment startTime stopTime v0 a0 closeOk inputs =
        (Outcome.errLoop, t) := by
      simp only [runMain, hp]
    rw [hrm]
    obtain ⟨hfc, hkb, hgc, hgo, hic⟩ := hcases.1 rfl
    constructor
    · intro _
      refine ⟨⟨hfc, hkb, fun hg => ?_⟩, ?_⟩
      · rw [hgc]
        rw [hgo] at hg
        exact hg
      · rw [hic]
        rfl
    · rintro (h | h) <;> simp at h
  | errClose => exact absurd rfl hnec
  | ok =>
    have hpres := hcases.2 (by simp)
    unfold runMain
    rw [hp]
    dsimp only
    split
    · constructor
      · intro h
        simp at h
      · intro _
        refine ⟨⟨rfl, rfl, fun hg => hg⟩, rfl⟩
    · constructor
      · intro h
        simp at h
      · intro _
        refine ⟨⟨rfl, rfl, fun hg => hg⟩, rfl⟩
  | spent =>
    have hrm : runMain cfg comment startTime stopTime v0 a0 closeOk inputs =
        (Outcome.spent, t) := by
      simp only [runMain, hp]
    rw [hrm]
    constructor
    · intro h
      simp at h
    · rintro (h | h) <;> simp at h

/-- C3, witness: the amended exit-path guarantee applied to the concrete
run whose first `VSET` write fails. -/
theorem c3_amended_witness :
    released (runMain cfgA "c" "st" "sp" 0 0 true c3Inputs).2 ∧
    (runMain cfgA "c" "st" "sp" 0 0 true c3Inputs).2.instClosed = false :=
  (c3_amended cfgA "c" "st" "sp" 0 0 true c3Inputs).1 (by decide)

/-- C4 (amended): for every valid single (non-dual) ramp configuration
(`step_mv ≠ 0`, `|step_mv| ≤ 1000`, `set_volt ≤ max_volt`), the per-cycle
ramp decision signals termination within
`ceil(|end_volt − start_volt| / |step_mv/1000|) + 2` calls (one more than
the claim's bound), and every setpoint applied before termination lies
strictly between the start voltage and one full step *beyond* the end
voltage (the final setpoint always overshoots the end bound, because the
bound test precedes the unconditional step). -/
theorem c4_amended (cfg : Config) (h0 : cfg.ramp ≠ 0) (hm : cfg.ramp.natAbs ≤ 1000)
    (hv : cfg.set_volt ≤ cfg.max_volt) (hd : cfg.dramp0 = false) :
    RampDecision.terminate ∈ rampTrace cfg (initRampSt cfg) (ceilSteps cfg + 2) ∧
    ∀ v, RampDecision.apply v ∈ rampTrace cfg (initRampSt cfg) (ceilSteps cfg + 2) →
      (0 < cfg.ramp → cfg.set_volt < v ∧ v ≤ cfg.max_volt + stepQ cfg.ramp) ∧
      (cfg.ramp < 0 → v < cfg.max_volt ∧ cfg.set_volt + stepQ cfg.ramp ≤ v) := by
  rcases lt_or_gt_of_ne h0 with hr | hr
  · -- downward ramp: the stepping starts from max_volt
    have hini : initRampSt cfg = ⟨cfg.max_volt, cfg.ramp, false, false⟩ := by
      unfold initRampSt
      rw [hd, if_neg (by omega : ¬ (0 : ℤ) < cfg.ramp)]
    have hrQ : (cfg.ramp : ℚ) < 0 := by exact_mod_cast hr
    have habs : |(cfg.ramp : ℚ)| = -(cfg.ramp : ℚ) := abs_of_neg hrQ
    have hD : (0 : ℚ) ≤ cfg.max_volt - cfg.set_volt := sub_nonneg.mpr hv
    have hceil : ((ceilSteps cfg : ℕ) : ℚ) ≥
        (cfg.max_volt - cfg.set_volt) * 1000 / (-(cfg.ramp : ℚ)) := by
      unfold ceilSteps
      rw [habs]
      have h0' : (0 : ℤ) ≤ ⌈(cfg.max_volt - cfg.set_volt) * 1000 / (-(cfg.ramp : ℚ))⌉ :=
        Int.ceil_nonneg
          (div_nonneg (mul_nonneg hD (by norm_num)) (by linarith))
      have h1 := Int.le_ceil ((cfg.max_volt - cfg.set_volt) * 1000 / (-(cfg.ramp : ℚ)))
      calc ((⌈(cfg.max_volt - cfg.set_volt) * 1000 / (-(cfg.ramp : ℚ))⌉.toNat : ℕ) : ℚ) =
          ((⌈(cfg.max_volt - cfg.set_volt) * 1000 / (-(cfg.ramp : ℚ))⌉ : ℤ) : ℚ) := by
            exact_mod_cast Int.toNat_of_nonneg h0'
        _ ≥ (cfg.max_volt - cfg.set_volt) * 1000 / (-(cfg.ramp : ℚ)) := h1
    have hmain : cfg.max_volt + (((ceilSteps cfg : ℕ) : ℚ) + 1) * stepQ cfg.ramp <
        cfg.set_volt := by
      have hpos : (0 : ℚ) < -(cfg.ramp : ℚ) / 1000 := by
        apply div_pos (by linarith) (by norm_num)
      have hDs : (cfg.max_volt - cfg.set_volt) * 1000 / (-(cfg.ramp : ℚ)) *
          (-(cfg.ramp : ℚ) / 1000) = cfg.max_volt - cfg.set_volt := by
        field_simp
      have h2 : ((ceilSteps cfg : ℕ) : ℚ) * (-(cfg.ramp : ℚ) / 1000) ≥
          cfg.max_volt - cfg.set_volt := by
        calc ((ceilSteps cfg : ℕ) : ℚ) * (-(cfg.ramp : ℚ) / 1000) ≥
            (cfg.max_volt - cfg.set_volt) * 1000 / (-(cfg.ramp : ℚ)) *
              (-(cfg.ramp : ℚ) / 1000) := mul_le_mul_of_nonneg_right hceil (le_of_lt hpos)
          _ = cfg.max_volt - cfg.set_volt := hDs
      have h3 : (((ceilSteps cfg : ℕ) : ℚ) + 1) * stepQ cfg.ramp =
          -(((ceilSteps cfg : ℕ) : ℚ) * (-(cfg.ramp : ℚ) / 1000)) - -(cfg.ramp : ℚ) / 1000 := by
        unfold stepQ
        ring
      rw [h3]
      linarith
    obtain ⟨hT, hV, _, _⟩ := run_down cfg cfg.ramp hr (ceilSteps cfg) cfg.max_volt false hv hmain
    rw [hini]
    refine ⟨hT, fun v hv' => ?_⟩
    obtain ⟨h4, h5⟩ := hV v hv'
    exact ⟨fun hpos => absurd hpos (by omega), fun _ => ⟨h4, h5⟩⟩
  · -- upward ramp: the stepping starts from set_volt
    have hini : initRampSt cfg = ⟨cfg.set_volt, cfg.ramp, false, false⟩ := by
      unfold initRampSt
      rw [hd, if_pos hr]
    have hrQ : (0 : ℚ) < (cfg.ramp : ℚ) := by exact_mod_cast hr
    have habs : |(cfg.ramp : ℚ)| = (cfg.ramp : ℚ) := abs_of_pos hrQ
    have hD : (0 : ℚ) ≤ cfg.max_volt - cfg.set_volt := sub_nonneg.mpr hv
    have hceil : ((ceilSteps cfg : ℕ) : ℚ) ≥
        (cfg.max_volt - cfg.set_volt) * 1000 / (cfg.ramp : ℚ) := by
      unfold ceilSteps
      rw [habs]
      have h0' : (0 : ℤ) ≤ ⌈(cfg.max_volt - cfg.set_volt) * 1000 / (cfg.ramp : ℚ)⌉ :=
        Int.ceil_nonneg
          (div_nonneg (mul_nonneg hD (by norm_num)) (le_of_lt hrQ))
      have h1 := Int.le_ceil ((cfg.max_volt - cfg.set_volt) * 1000 / (cfg.ramp : ℚ))
      calc ((⌈(cfg.max_volt - cfg.set_volt) * 1000 / (cfg.ramp : ℚ)⌉.toNat : ℕ) : ℚ) =
          ((⌈(cfg.max_volt - cfg.set_volt) * 1000 / (cfg.ramp : ℚ)⌉ : ℤ) : ℚ) := by
            exact_mod_cast Int.toNat_of_nonneg h0'
        _ ≥ (cfg.max_volt - cfg.set_volt) * 1000 / (cfg.ramp : ℚ) := h1
    have hmain : cfg.max_volt <
        cfg.set_volt + (((ceilSteps cfg : ℕ) : ℚ) + 1) * stepQ cfg.ramp := by
      have hpos : (0 : ℚ) < (cfg.ramp : ℚ) / 1000 := by positivity
      have hDs : (cfg.max_volt - cfg.set_volt) * 1000 / (cfg.ramp : ℚ) *
          ((cfg.ramp : ℚ) / 1000) = cfg.max_volt - cfg.set_volt := by
        field_simp
      have h2 : ((ceilSteps cfg : ℕ) : ℚ) * ((cfg.ramp : ℚ) / 1000) ≥
          cfg.max_volt - cfg.set_volt := by
        calc ((ceilSteps cfg : ℕ) : ℚ) * ((cfg.ramp : ℚ) / 1000) ≥
            (cfg.max_volt - cfg.set_volt) * 1000 / (cfg.ramp : ℚ) *
              ((cfg.ramp : ℚ) / 1000) := mul_le_mul_of_nonneg_right hceil (le_of_lt hpos)
          _ = cfg.max_volt - cfg.set_volt := hDs
      have h3 : (((ceilSteps cfg : ℕ) : ℚ) + 1) * stepQ cfg.ramp =
          ((ceilSteps cfg : ℕ) : ℚ) * ((cfg.ramp : ℚ) / 1000) + (cfg.ramp : ℚ) / 1000 := by
        unfold stepQ
        ring
      rw [h3]
      linarith
    obtain ⟨hT, hV, _, _⟩ := run_up cfg cfg.ramp hr (ceilSteps cfg) cfg.set_volt false hv hmain
    rw [hini]
    refine ⟨hT, fun v hv' => ?_⟩
    obtain ⟨h4, h5⟩ := hV v hv'
    exact ⟨fun _ => ⟨h4, h5⟩, fun hneg => absurd hneg (by omega)⟩

/-- C4, witness: the amended bound and setpoint range instantiated at the
single upward ramp `0 → 5 V` in 1 V steps. -/
theorem c4_amended_witness :
    RampDecision.terminate ∈ rampTrace cfgA (initRampSt cfgA) (ceilSteps cfgA + 2) ∧
    ∀ v, RampDecision.apply v ∈ rampTrace cfgA (initRampSt cfgA) (ceilSteps cfgA + 2) →
      (0 < cfgA.ramp → cfgA.set_volt < v ∧ v ≤ cfgA.max_volt + stepQ cfgA.ramp) ∧
      (cfgA.ramp < 0 → v < cfgA.max_volt ∧ cfgA.set_volt + stepQ cfgA.ramp ≤ v) :=
  c4_amended cfgA (by decide) (by decide) (by decide) (by decide)

/-- C5, counterexample: in the dual ramp `0 → 5 → 0` with 1000 mV steps,
the decision after setpoint 5.0 (index 5 of the trace) is *not* the
reversal but one further outbound step to 6.0 V, and the returning
segment continues past 0.0 down to −1.0 V before terminating. -/
theorem c5_counterexample :
    (rampTrace cfgB (initRampSt cfgB) 20).get? 5 = some (RampDecision.apply 6) ∧
    RampDecision.apply (-1) ∈ rampTrace cfgB (initRampSt cfgB) 20 := by decide

/-- C5 (amended): the dual ramp `0 → 5 → 0` with 1000 mV steps produces
exactly the decisions `ApplySetpoint 1.0 … 6.0` (one step beyond the
upper bound), then the reversal (separator plus `ApplySetpoint 5.0`),
then `ApplySetpoint 4.0 … 0.0, −1.0` (one step beyond the lower bound),
then termination. -/
theorem c5_amended_trace :
    rampTrace cfgB (initRampSt cfgB) 20 =
      [RampDecision.apply 1, RampDecision.apply 2, RampDecision.apply 3, RampDecision.apply 4,
       RampDecision.apply 5, RampDecision.apply 6, RampDecision.reverse 5,
       RampDecision.apply 4, RampDecision.apply 3, RampDecision.apply 2, RampDecision.apply 1,
       RampDecision.apply 0, RampDecision.apply (-1), RampDecision.terminate] := by decide

/-- C6: for every valid dual-ramp configuration (`step_mv ≠ 0`,
`|step_mv| ≤ 1000`, `set_volt ≤ max_volt`, `dramp` requested), the run
reaches termination, the reversal decision occurs exactly once over the
whole run (however much fuel it is given beyond termination), and after
it the signed step is exactly the negation of its initial value — in
particular, after the one reversal the run can only terminate, never
reverse again. -/
theorem c6_single_reversal (cfg : Config) (h0 : cfg.ramp ≠ 0) (hm : cfg.ramp.natAbs ≤ 1000)
    (hv : cfg.set_volt ≤ cfg.max_volt) (hd : cfg.dramp0 = true) :
    ∃ N, RampDecision.terminate ∈ rampTrace cfg (initRampSt cfg) N ∧
      ∀ M, N ≤ M →
        countReverse (rampTrace cfg (initRampSt cfg) M) = 1 ∧
        (rampRun cfg (initRampSt cfg) M).2.ramp = -cfg.ramp := by
  rcases lt_or_gt_of_ne h0 with hr | hr
  · -- downward dual ramp, starting from max_volt
    have hini : initRampSt cfg = ⟨cfg.max_volt, cfg.ramp, true, false⟩ := by
      unfold initRampSt
      rw [hd, if_neg (by omega : ¬ (0 : ℤ) < cfg.ramp)]
    have hs : stepQ cfg.ramp < 0 := stepQ_neg_of_neg hr
    obtain ⟨n, hn⟩ := exists_steps (cfg.max_volt - cfg.set_volt) (-stepQ cfg.ramp) (by linarith)
    have hend : cfg.max_volt + ((n : ℚ) + 1) * stepQ cfg.ramp < cfg.set_volt := by
      have hrw : ((n : ℚ) + 1) * -stepQ cfg.ramp = -(((n : ℚ) + 1) * stepQ cfg.ramp) := by ring
      rw [hrw] at hn
      linarith
    obtain ⟨N, hT, hC, hR⟩ := dual_down cfg cfg.ramp hr n cfg.max_volt false hv hend
    rw [hini]
    refine ⟨N, hT, fun M hM => ?_⟩
    have hstab := rampRun_stable cfg N M ⟨cfg.max_volt, cfg.ramp, true, false⟩ hT hM
    rw [rampTrace, hstab]
    exact ⟨hC, hR⟩
  · -- upward dual ramp, starting from set_volt
    have hini : initRampSt cfg = ⟨cfg.set_volt, cfg.ramp, true, false⟩ := by
      unfold initRampSt
      rw [hd, if_pos hr]
    have hs : 0 < stepQ cfg.ramp := stepQ_pos hr
    obtain ⟨n, hn⟩ := exists_steps (cfg.max_volt - cfg.set_volt) (stepQ cfg.ramp) hs
    have hend : cfg.max_volt < cfg.set_volt + ((n : ℚ) + 1) * stepQ cfg.ramp := by linarith
    obtain ⟨N, hT, hC, hR⟩ := dual_up cfg cfg.ramp hr n cfg.set_volt false hv hend
    rw [hini]
    refine ⟨N, hT, fun M hM => ?_⟩
    have hstab := rampRun_stable cfg N M ⟨cfg.set_volt, cfg.ramp, true, false⟩ hT hM
    rw [rampTrace, hstab]
    exact ⟨hC, hR⟩

/-- C6, witness: the single-reversal property instantiated at the dual
ramp `0 → 5 → 0` in 1 V steps. -/
theorem c6_single_reversal_witness :
    ∃ N, RampDecision.terminate ∈ rampTrace cfgB (initRampSt cfgB) N ∧
      ∀ M, N ≤ M →
        countReverse (rampTrace cfgB (initRampSt cfgB) M) = 1 ∧
        (rampRun cfgB (initRampSt cfgB) M).2.ramp = -cfgB.ramp :=
  c6_single_reversal cfgB (by decide) (by decide) (by decide) (by decide)

/-- C7: writing `N` samples, one segment boundary, then `M` samples and
closing produces a file whose lines are the `N` record lines, exactly two
blank lines, then the `M` record lines (record lines are never blank, so
the two blank lines are exactly the separator); reading the file back —
skipping blank lines and parsing each record — recovers the original
`N + M` numeric triples rounded to the four decimal places `%.4f`
keeps. -/
theorem c7_roundtrip (xs ys : List (ℚ × ℚ × ℚ)) :
    (c7File xs ys).disk = xs.map fmtLine3 ++ "" :: "" :: ys.map fmtLine3 ∧
    (∀ l ∈ xs.map fmtLine3 ++ ys.map fmtLine3, l ≠ "") ∧
    (c7File xs ys).closed = true ∧
    readBack (c7File xs ys).disk = (xs ++ ys).map (fun r => some (round4Triple r)) := by
  have hdisk : (c7File xs ys).disk = xs.map fmtLine3 ++ "" :: "" :: ys.map fmtLine3 := by
    unfold c7File
    rw [writeSamples_buf, writeSamples_buf]
    simp [fwrite, fcloseF]
  refine ⟨hdisk, ?_, ?_, ?_⟩
  · intro l hl
    rcases List.mem_append.mp hl with h | h <;>
      · obtain ⟨r, _, rfl⟩ := List.mem_map.mp h
        exact fmtLine3_ne_empty r
  · unfold c7File
    rw [writeSamples_buf, writeSamples_buf]
    rfl
  · rw [hdisk]
    unfold readBack
    rw [List.filter_append, filter_records]
    have hblank : List.filter (fun l => !(l == "")) ("" :: "" :: ys.map fmtLine3) =
        (ys.map fmtLine3).filter (fun l => !(l == "")) := by
      rw [List.filter_cons, List.filter_cons]
      simp
    rw [hblank, filter_records, List.map_append, parseRecords_map, parseRecords_map,
      List.map_append]

/-- C8: two good acquisition cycles followed by an `IOUT?` query failure
in cycle 3 end the run with the mid-loop `ERR_INST` exit (the model's
`InstrumentFailure(Read)`), and the dataset file on disk contains exactly
the two complete records of the first two cycles, fully flushed (empty
buffer) and closed. -/
theorem c8_read_failure_cycle3 :
    (runMain cfgS "c" "st" "sp" 0 0 true c8Inputs).1 = Outcome.errLoop ∧
    dataRecords (runMain cfgS "c" "st" "sp" 0 0 true c8Inputs).2.file.disk =
      ["1.0000\t1.0000\t0.1000", "2.0000\t2.0000\t0.2000"] ∧
    (runMain cfgS "c" "st" "sp" 0 0 true c8Inputs).2.file.closed = true ∧
    (runMain cfgS "c" "st" "sp" 0 0 true c8Inputs).2.file.buf = [] := by decide

/-- C9: with flush cadence `do_flush = 100`, a quit key observed during
cycle 10 lets that cycle complete (its record included), the run ends
normally, and the closed dataset file holds all 10 sample records on
disk with nothing left unflushed — `fclose` flushes what the periodic
flush (never triggered: 10 < 100) did not. -/
theorem c9_cancel_cycle10 :
    cfgS.do_flush = 100 ∧
    (runMain cfgS "c" "st" "sp" 0 0 true c9Inputs).1 = Outcome.ok ∧
    (dataRecords (runMain cfgS "c" "st" "sp" 0 0 true c9Inputs).2.file.disk).length = 10 ∧
    (runMain cfgS "c" "st" "sp" 0 0 true c9Inputs).2.file.closed = true ∧
    (runMain cfgS "c" "st" "sp" 0 0 true c9Inputs).2.file.buf = [] := by decide

/-- C10 (amended): the combined setup command uses voltage 0.0 whenever a
positive ramp step is requested and `set_volt` otherwise — including for
a negative (downward) ramp, whose stepping nonetheless begins from
`max_volt`, so that the first loop-applied setpoint is
`max_volt + step`; that setpoint differs from the setup voltage
`set_volt` *except* when `max_volt − set_volt` equals the step
magnitude. -/
theorem c10_amended (cfg : Config) (hv : cfg.set_volt ≤ cfg.max_volt) :
    (0 < cfg.ramp → setupVolt cfg.ramp cfg.set_volt = 0) ∧
    (¬ 0 < cfg.ramp → setupVolt cfg.ramp cfg.set_volt = cfg.set_volt) ∧
    (cfg.ramp < 0 →
      (initRampSt cfg).ramp_volt = cfg.max_volt ∧
      (rampTrace cfg (initRampSt cfg) 1).head? =
        some (RampDecision.apply (cfg.max_volt + stepQ cfg.ramp)) ∧
      (cfg.max_volt + stepQ cfg.ramp = cfg.set_volt ↔
        cfg.max_volt - cfg.set_volt = -stepQ cfg.ramp)) := by
  refine ⟨fun hp => ?_, fun hp => ?_, fun hr => ?_⟩
  · unfold setupVolt
    rw [if_pos hp]
  · unfold setupVolt
    rw [if_neg hp]
  · have hini : initRampSt cfg = ⟨cfg.max_volt, cfg.ramp, cfg.dramp0, false⟩ := by
      unfold initRampSt
      rw [if_neg (by omega : ¬ (0 : ℤ) < cfg.ramp)]
    have hc := rampCycle_apply
      (boundReached_false_down cfg.dramp0 false hr hv)
    refine ⟨by rw [hini], ?_, by constructor <;> intro h <;> linarith⟩
    rw [hini]
    simp only [rampTrace, rampRun_succ_apply 0 hc]
    rfl

/-- C10, witness: the amended statement instantiated at the downward ramp
`-u 0 -U 0.001 -r -1`. -/
theorem c10_amended_witness :
    (0 < cfgC.ramp → setupVolt cfgC.ramp cfgC.set_volt = 0) ∧
    (¬ 0 < cfgC.ramp → setupVolt cfgC.ramp cfgC.set_volt = cfgC.set_volt) ∧
    (cfgC.ramp < 0 →
      (initRampSt cfgC).ramp_volt = cfgC.max_volt ∧
      (rampTrace cfgC (initRampSt cfgC) 1).head? =
        some (RampDecision.apply (cfgC.max_volt + stepQ cfgC.ramp)) ∧
      (cfgC.max_volt + stepQ cfgC.ramp = cfgC.set_volt ↔
        cfgC.max_volt - cfgC.set_volt = -stepQ cfgC.ramp)) :=
  c10_amended cfgC (by decide)

/-- C10, counterexample: for the downward ramp `-u 0 -U 0.001 -r -1`
(a span of exactly one step) the first loop-applied setpoint,
`max_volt + step = 0.0`, *equals* the setup voltage
`setupVolt = set_volt = 0.0` — refuting the claim that they always
differ. -/
theorem c10_counterexample :
    cfgC.ramp < 0 ∧
    (rampTrace cfgC (initRampSt cfgC) 3).head? =
      some (RampDecision.apply (setupVolt cfgC.ramp cfgC.set_volt)) := by decide

end HP6633
